import Mathlib

/-!
Verification of the Kitty Graphics Protocol subsystem of a browser terminal
emulator (sequence parser, Base64 codec, LRU image store, orchestrator).

Strings from the TypeScript source are modelled as `List Char`; byte arrays
(`Uint8Array`) as `List Nat` with values below 256.  JavaScript 32-bit
bitwise arithmetic is modelled on `Nat` with an explicit reduction modulo
2^32 where the source can overflow, and bitwise or/shift of disjoint bit
ranges is written with `*`, `/`, `%` (equivalent for the operand ranges at
hand).  `Map`/`Set` objects are modelled as insertion-ordered association
lists, matching JavaScript iteration order.
-/

namespace GhosttyWeb

/-- JavaScript-style substring for `a ≤ b`: characters in positions `[a, b)`. -/
def sliceL (l : List Char) (a b : Nat) : List Char :=
  (l.take b).drop a

/-! ## Base64 codec (src/lib/graphics/image-decoder.ts) -/

/-- The Base64 alphabet string from the source (`BASE64_CHARS`). -/
def BASE64_CHARS : List Char :=
  "ABCDEFGHIJKLMNOPQRSTUVWXYZabcdefghijklmnopqrstuvwxyz0123456789+/".toList

/-- Indexing into `BASE64_CHARS`; all call sites use an index below 64. -/
def b64charAt (v : Nat) : Char := BASE64_CHARS.getD v 'A'

/-- The source builds `BASE64_LOOKUP : Uint8Array(256)` by storing `i` at the
char code of `BASE64_CHARS[i]` for ascending `i`, leaving 0 elsewhere.  The
fold reproduces that table (alphabet characters are distinct, last write
wins). -/
def BASE64_LOOKUP (code : Nat) : Nat :=
  (List.range 64).foldl (fun acc i => if (b64charAt i).toNat = code then i else acc) 0

/-- Character-code test of the first counting pass of `base64ToBytes`
(A-Z, a-z, 0-9, `+`, `/`, and the URL-safe `-`, `_`). -/
def isB64CountCode (c : Nat) : Bool :=
  (65 ≤ c && c ≤ 90) || (97 ≤ c && c ≤ 122) || (48 ≤ c && c ≤ 57) ||
    c == 43 || c == 47 || c == 45 || c == 95

/-- Character-code test of the decoding loop of `base64ToBytes`, applied after
URL-safe normalization (standard alphabet only). -/
def isB64StdCode (c : Nat) : Bool :=
  (65 ≤ c && c ≤ 90) || (97 ≤ c && c ≤ 122) || (48 ≤ c && c ≤ 57) ||
    c == 43 || c == 47

/-- Output length computed by the counting pass of `base64ToBytes`:
`floor((validLen + padding) * 3 / 4) - padding`.  The source counts valid
characters and `=` padding in one loop over the string; two filters count the
same sets. -/
def b64OutputLen (s : List Char) : Nat :=
  let validLen := (s.filter (fun c => isB64CountCode c.toNat)).length
  let padding := (s.filter (fun c => c.toNat == 61)).length
  ((validLen + padding) * 3) / 4 - padding

/-- 2^32, the wrap-around modulus of JavaScript bitwise operators. -/
def M32 : Nat := 4294967296

/-- The decoding loop of `base64ToBytes`: state `bits`/`collected` plus the
number of output bytes still to emit (`outputLen - outIdx`; the loop guard
`outIdx < outputLen` stops the loop at 0).  `bits = (bits << 6) | lookup` is
`bits * 64 + lookup` reduced modulo 2^32 (the looked-up value is below 64, so
the or is an addition), and `(bits >> collected) & 0xff` is
`bits / 2 ^ collected % 256`. -/
def b64DecodeLoop : List Char → Nat → Nat → Nat → List Nat
  | [], _, _, _ => []
  | _, _, _, 0 => []
  | c :: rest, bits, collected, remaining + 1 =>
    let c0 := c.toNat
    let c1 := if c0 == 45 then 43 else if c0 == 95 then 47 else c0
    if isB64StdCode c1 then
      let bits' := (bits * 64 + BASE64_LOOKUP c1) % M32
      let collected' := collected + 6
      if 8 ≤ collected' then
        (bits' / 2 ^ (collected' - 8)) % 256 ::
          b64DecodeLoop rest bits' (collected' - 8) remaining
      else
        b64DecodeLoop rest bits' collected' (remaining + 1)
    else
      b64DecodeLoop rest bits collected (remaining + 1)

/-- `base64ToBytes` from the source: counting pass, then the decoding loop. -/
def base64ToBytes (s : List Char) : List Nat :=
  b64DecodeLoop s 0 0 (b64OutputLen s)

/-- `bytesToBase64` from the source, three input bytes per four output
characters; the final group is padded with `=`.  `b1 >> 2` is `b1 / 4`,
`((b1 & 3) << 4) | (b2 >> 4)` is `(b1 % 4) * 16 + b2 / 16`, etc., with the
absent bytes of a final partial group read as 0 as in the source. -/
def bytesToBase64 : List Nat → List Char
  | [] => []
  | [b1] => [b64charAt (b1 / 4), b64charAt (b1 % 4 * 16), '=', '=']
  | [b1, b2] => [b64charAt (b1 / 4), b64charAt (b1 % 4 * 16 + b2 / 16),
      b64charAt (b2 % 16 * 4), '=']
  | b1 :: b2 :: b3 :: rest =>
    b64charAt (b1 / 4) :: b64charAt (b1 % 4 * 16 + b2 / 16) ::
      b64charAt (b2 % 16 * 4 + b3 / 64) :: b64charAt (b3 % 64) ::
      bytesToBase64 rest

/-- `ImageDecoder.combineChunksToBytes`: empty list gives no bytes, a single
chunk is decoded directly, otherwise every non-empty chunk is decoded and the
byte arrays are concatenated in order (`if (!chunk) continue` skips empty
strings). -/
def combineChunksToBytes (chunks : List (List Char)) : List Nat :=
  match chunks with
  | [] => []
  | [c] => base64ToBytes c
  | _ => ((chunks.filter (fun c => !c.isEmpty)).map base64ToBytes).flatten

/-! ### Round-trip lemmas for the Base64 codec -/

/-- Looking up the code of the v-th alphabet character recovers v. -/
theorem lookup_b64charAt : ∀ v < 64, BASE64_LOOKUP (b64charAt v).toNat = v := by decide

/-- Alphabet characters pass the decoding-loop character test. -/
theorem std_b64charAt : ∀ v < 64, isB64StdCode (b64charAt v).toNat = true := by decide

/-- Alphabet characters pass the counting-pass character test. -/
theorem count_b64charAt : ∀ v < 64, isB64CountCode (b64charAt v).toNat = true := by decide

/-- Alphabet character codes are neither 45 nor 95 nor 61. -/
theorem b64charAt_codes : ∀ v < 64,
    (b64charAt v).toNat ≠ 45 ∧ (b64charAt v).toNat ≠ 95 ∧ (b64charAt v).toNat ≠ 61 := by
  decide

/-- One step of the decoding loop on an alphabet character. -/
theorem b64DecodeLoop_alpha (v : Nat) (hv : v < 64) (rest : List Char)
    (bits collected rem : Nat) :
    b64DecodeLoop (b64charAt v :: rest) bits collected (rem + 1) =
      (if 8 ≤ collected + 6 then
        ((bits * 64 + v) % M32 / 2 ^ (collected + 6 - 8)) % 256 ::
          b64DecodeLoop rest ((bits * 64 + v) % M32) (collected + 6 - 8) rem
      else
        b64DecodeLoop rest ((bits * 64 + v) % M32) (collected + 6) (rem + 1)) := by
  obtain ⟨h45, h95, _⟩ := b64charAt_codes v hv
  simp only [b64DecodeLoop, beq_iff_eq, h45, h95, if_false,
    std_b64charAt v hv, lookup_b64charAt v hv, if_true]

/-- One step of the decoding loop on the `=` padding character (skipped). -/
theorem b64DecodeLoop_pad (rest : List Char) (bits collected rem : Nat) :
    b64DecodeLoop ('=' :: rest) bits collected (rem + 1) =
      b64DecodeLoop rest bits collected (rem + 1) := by
  simp [b64DecodeLoop, isB64StdCode]

/-- The decoding loop emits nothing once the output budget is exhausted. -/
theorem b64DecodeLoop_zero (s : List Char) (bits collected : Nat) :
    b64DecodeLoop s bits collected 0 = [] := by
  cases s <;> rfl

/-- Dropping the modulo-2^32 reduction does not change an emitted byte, for
the shift amounts (0, 2 and 4) that occur in the loop. -/
theorem emit_mod32 (x c : Nat) (hc : c ≤ 4) :
    x % M32 / 2 ^ c % 256 = x / 2 ^ c % 256 := by
  have h2 : (2 : Nat) ^ c ∣ 2 ^ 12 := pow_dvd_pow 2 (by omega)
  have hM : (2 : Nat) ^ c * 256 ∣ M32 := by
    interval_cases c <;> decide
  calc x % M32 / 2 ^ c % 256
      = x % M32 % (2 ^ c * 256) / 2 ^ c := (Nat.mod_mul_right_div_self _ _ _).symm
    _ = x % (2 ^ c * 256) / 2 ^ c := by rw [Nat.mod_mod_of_dvd _ hM]
    _ = x / 2 ^ c % 256 := Nat.mod_mul_right_div_self _ _ _

/-- Accumulating into the 32-bit register commutes with delaying the
reduction. -/
theorem acc_mod32 (x v : Nat) :
    (x % M32 * 64 + v) % M32 = (x * 64 + v) % M32 := by
  conv_lhs => rw [Nat.add_mod, Nat.mul_mod, Nat.mod_mod]
  conv_rhs => rw [Nat.add_mod, Nat.mul_mod]

/-- Padding does not pass the counting-pass character test. -/
theorem countCode_pad : isB64CountCode ('=').toNat = false := by decide

/-- Padding is `=` under `==`. -/
theorem padEq_pad : (('=').toNat == 61) = true := by decide

/-- Alphabet characters are not `=` under `==`. -/
theorem pad_b64charAt : ∀ v < 64, ((b64charAt v).toNat == 61) = false := by decide

/-- Out-of-range indexing into the alphabet falls back to the default
character `A`; the next two lemmas therefore hold without an index bound. -/
theorem b64charAt_ge (v : Nat) (h : 64 ≤ v) : b64charAt v = 'A' := by
  unfold b64charAt
  exact List.getD_eq_default _ _ (le_trans (by decide) h)

/-- Every character the encoder can emit from the alphabet passes the
counting-pass test. -/
theorem count_b64charAt_all (v : Nat) : isB64CountCode (b64charAt v).toNat = true := by
  by_cases h : v < 64
  · exact count_b64charAt v h
  · rw [b64charAt_ge v (by omega)]; decide

/-- Every character the encoder can emit from the alphabet is not `=`. -/
theorem pad_b64charAt_all (v : Nat) : ((b64charAt v).toNat == 61) = false := by
  by_cases h : v < 64
  · exact pad_b64charAt v h
  · rw [b64charAt_ge v (by omega)]; decide

/-- Decoding the four characters of one full Base64 group emits the three
source bytes and continues with an updated register, `collected = 0`, and the
output budget reduced by three, for any incoming register contents `B`. -/
theorem b64_decode_group (b1 b2 b3 B rem : Nat) (h1 : b1 < 256) (h2 : b2 < 256)
    (h3 : b3 < 256) (rest : List Char) :
    b64DecodeLoop (b64charAt (b1 / 4) :: b64charAt (b1 % 4 * 16 + b2 / 16) ::
        b64charAt (b2 % 16 * 4 + b3 / 64) :: b64charAt (b3 % 64) :: rest) B 0 (rem + 3) =
      b1 :: b2 :: b3 :: b64DecodeLoop rest
        (((((B * 64 + b1 / 4) % M32 * 64 + (b1 % 4 * 16 + b2 / 16)) % M32 * 64 +
            (b2 % 16 * 4 + b3 / 64)) % M32 * 64 + b3 % 64) % M32) 0 rem := by
  have hv1 : b1 / 4 < 64 := by omega
  have hv2 : b1 % 4 * 16 + b2 / 16 < 64 := by omega
  have hv3 : b2 % 16 * 4 + b3 / 64 < 64 := by omega
  have hv4 : b3 % 64 < 64 := by omega
  rw [show rem + 3 = (rem + 2) + 1 by omega, b64DecodeLoop_alpha _ hv1]
  norm_num
  rw [show rem + 2 = (rem + 1) + 1 by omega, b64DecodeLoop_alpha _ hv2]
  norm_num
  rw [b64DecodeLoop_alpha _ hv3]
  norm_num
  rw [b64DecodeLoop_alpha _ hv4]
  norm_num
  refine ⟨?_, ?_, ?_⟩ <;> (simp only [M32]; omega)

/-- Decoding the encoding of a byte list with an output budget equal to the
byte count recovers the bytes, for any incoming register contents `B`. -/
theorem b64_decode_enc : ∀ (bytes : List Nat), (∀ b ∈ bytes, b < 256) → ∀ B : Nat,
    b64DecodeLoop (bytesToBase64 bytes) B 0 bytes.length = bytes
  | [], _, _ => rfl
  | [b1], h, B => by
    have h1 : b1 < 256 := h b1 (by simp)
    have hv1 : b1 / 4 < 64 := by omega
    have hv2 : b1 % 4 * 16 < 64 := by omega
    rw [bytesToBase64, show [b1].length = 0 + 1 by rfl, b64DecodeLoop_alpha _ hv1]
    norm_num
    rw [b64DecodeLoop_alpha _ hv2]
    norm_num
    rw [b64DecodeLoop_zero]
    refine ⟨?_, rfl⟩
    simp only [M32]
    omega
  | [b1, b2], h, B => by
    have h1 : b1 < 256 := h b1 (by simp)
    have h2 : b2 < 256 := h b2 (by simp)
    have hv1 : b1 / 4 < 64 := by omega
    have hv2 : b1 % 4 * 16 + b2 / 16 < 64 := by omega
    have hv3 : b2 % 16 * 4 < 64 := by omega
    rw [bytesToBase64, show [b1, b2].length = 1 + 1 by rfl, b64DecodeLoop_alpha _ hv1]
    norm_num
    rw [b64DecodeLoop_alpha _ hv2]
    norm_num
    rw [b64DecodeLoop_alpha _ hv3]
    norm_num
    rw [b64DecodeLoop_zero]
    refine ⟨?_, ?_, rfl⟩ <;> (simp only [M32]; omega)
  | b1 :: b2 :: b3 :: rest, h, B => by
    have h1 : b1 < 256 := h b1 (by simp)
    have h2 : b2 < 256 := h b2 (by simp)
    have h3 : b3 < 256 := h b3 (by simp)
    rw [bytesToBase64, show (b1 :: b2 :: b3 :: rest).length = rest.length + 3 by simp]
    rw [b64_decode_group b1 b2 b3 B rest.length h1 h2 h3 _]
    rw [b64_decode_enc rest (fun b hb => h b (by simp [hb])) _]

/-- The counting pass of the decoder computes exactly the byte count on an
encoder output: valid characters plus padding fill whole groups of four, and
padding count is determined by the byte count modulo three. -/
theorem enc_counts : ∀ (bytes : List Nat),
    ((bytesToBase64 bytes).filter (fun c => isB64CountCode c.toNat)).length =
        4 * ((bytes.length + 2) / 3) - (3 - bytes.length % 3) % 3 ∧
      ((bytesToBase64 bytes).filter (fun c => c.toNat == 61)).length =
        (3 - bytes.length % 3) % 3
  | [] => by simp [bytesToBase64]
  | [b1] => by
    simp only [bytesToBase64, List.filter_cons, count_b64charAt_all, pad_b64charAt_all,
      countCode_pad, padEq_pad, if_true, if_false, Bool.false_eq_true]
    simp
  | [b1, b2] => by
    simp only [bytesToBase64, List.filter_cons, count_b64charAt_all, pad_b64charAt_all,
      countCode_pad, padEq_pad, if_true, if_false, Bool.false_eq_true]
    simp
  | b1 :: b2 :: b3 :: rest => by
    obtain ⟨ih1, ih2⟩ := enc_counts rest
    simp only [bytesToBase64, List.filter_cons, count_b64charAt_all, pad_b64charAt_all,
      countCode_pad, padEq_pad, if_true, if_false, Bool.false_eq_true,
      List.length_cons, ih1, ih2]
    constructor
    · have hp : (3 - rest.length % 3) % 3 ≤ 2 := by omega
      have hq : (rest.length + 1 + 1 + 1 + 2) / 3 = (rest.length + 2) / 3 + 1 := by omega
      rw [hq]
      omega
    · omega

/-- The output-length computation of `base64ToBytes` on an encoder output is
the original byte count. -/
theorem b64OutputLen_enc (bytes : List Nat) :
    b64OutputLen (bytesToBase64 bytes) = bytes.length := by
  obtain ⟨hv, hp⟩ := enc_counts bytes
  simp only [b64OutputLen, hv, hp]
  have h4 : bytes.length % 3 = 0 ∨ bytes.length % 3 = 1 ∨ bytes.length % 3 = 2 := by omega
  rcases h4 with h | h | h <;> (rw [h]; omega)

/-- Base64 round trip: decoding the encoding of any byte list recovers it. -/
theorem base64_roundtrip (bytes : List Nat) (h : ∀ b ∈ bytes, b < 256) :
    base64ToBytes (bytesToBase64 bytes) = bytes := by
  unfold base64ToBytes
  rw [b64OutputLen_enc bytes]
  exact b64_decode_enc bytes h 0

/-- The encoder is a homomorphism on byte lists split at multiples of three. -/
theorem bytesToBase64_append : ∀ (a b : List Nat), a.length % 3 = 0 →
    bytesToBase64 (a ++ b) = bytesToBase64 a ++ bytesToBase64 b
  | [], b, _ => by simp [bytesToBase64]
  | [_], _, h => by simp at h
  | [_, _], _, h => by simp at h
  | a1 :: a2 :: a3 :: rest, b, h => by
    have hr : rest.length % 3 = 0 := by simp at h; omega
    simp only [List.cons_append, bytesToBase64]
    rw [show rest.append b = rest ++ b from rfl, bytesToBase64_append rest b hr]

/-- The encoder output length is four characters per group of three bytes. -/
theorem bytesToBase64_length : ∀ (l : List Nat),
    (bytesToBase64 l).length = 4 * ((l.length + 2) / 3)
  | [] => by simp [bytesToBase64]
  | [_] => by simp [bytesToBase64]
  | [_, _] => by simp [bytesToBase64]
  | _ :: _ :: _ :: rest => by
    simp only [bytesToBase64, List.length_cons, bytesToBase64_length rest]
    omega

/-- Decoding the empty string yields no bytes. -/
theorem base64ToBytes_nil : base64ToBytes [] = [] := rfl

/-- `combineChunksToBytes` equals decoding every chunk and concatenating; the
empty-chunk filter and the single-chunk shortcut do not change the result. -/
theorem combineChunksToBytes_flat : ∀ (chunks : List (List Char)),
    combineChunksToBytes chunks = (chunks.map base64ToBytes).flatten := by
  have hfilter : ∀ (l : List (List Char)),
      ((l.filter (fun c => !c.isEmpty)).map base64ToBytes).flatten =
        (l.map base64ToBytes).flatten := by
    intro l
    induction l with
    | nil => rfl
    | cons c cs ih =>
      cases c with
      | nil => simpa [List.filter_cons] using ih
      | cons x xs => simp [List.filter_cons, ih]
  intro chunks
  match chunks with
  | [] => rfl
  | [c] => simp [combineChunksToBytes]
  | c1 :: c2 :: cs =>
    rw [show combineChunksToBytes (c1 :: c2 :: cs) =
      (((c1 :: c2 :: cs).filter (fun c => !c.isEmpty)).map base64ToBytes).flatten from rfl]
    exact hfilter _

/-- An element of a list of lists is no longer than the flattening. -/
theorem mem_flatten_length_le {α : Type} (l : List (List α)) (x : List α) (hx : x ∈ l) :
    x.length ≤ l.flatten.length := by
  induction l with
  | nil => simp at hx
  | cons y ys ih =>
    simp only [List.flatten_cons, List.length_append]
    rcases List.mem_cons.mp hx with h | h
    · subst h; omega
    · have := ih h; omega

/-- Mapping the decoder over all-empty chunks flattens to nothing. -/
theorem flatten_map_decode_nil (l : List (List Char)) (hl : ∀ x ∈ l, x = []) :
    (l.map base64ToBytes).flatten = [] := by
  induction l with
  | nil => rfl
  | cons y ys ih =>
    rw [List.map_cons, List.flatten_cons, hl y (by simp), base64ToBytes_nil,
      List.nil_append]
    exact ih (fun x hx => hl x (by simp [hx]))

/-- Decoding chunk-wise recovers the bytes: if the chunks concatenate to the
encoding of `bytes` and every chunk length is a multiple of four, the
concatenation of the per-chunk decodes is `bytes`. -/
theorem flat_decode_of_aligned : ∀ (chunks : List (List Char)) (bytes : List Nat),
    (∀ b ∈ bytes, b < 256) → chunks.flatten = bytesToBase64 bytes →
    (∀ c ∈ chunks, c.length % 4 = 0) →
    (chunks.map base64ToBytes).flatten = bytes
  | [], bytes, _, hsplit, _ => by
    have hlen := congrArg List.length hsplit
    rw [bytesToBase64_length] at hlen
    simp at hlen
    have : bytes.length = 0 := by omega
    rw [List.eq_nil_of_length_eq_zero this]
    rfl
  | c :: cs, bytes, hb, hsplit, halign => by
    have hc4 : c.length % 4 = 0 := halign c (by simp)
    simp only [List.flatten_cons] at hsplit
    have hlen := congrArg List.length hsplit
    rw [bytesToBase64_length] at hlen
    simp only [List.length_append] at hlen
    by_cases hbig : (bytesToBase64 bytes).length ≤ c.length
    · -- the first chunk is the whole payload; the rest are empty
      rw [bytesToBase64_length] at hbig
      have hcs : cs.flatten.length = 0 := by omega
      have hflat : cs.flatten = [] := List.eq_nil_of_length_eq_zero hcs
      have hceq : c = bytesToBase64 bytes := by
        rw [hflat, List.append_nil] at hsplit
        exact hsplit
      have hrest : ∀ x ∈ cs, x = [] := fun x hx =>
        List.eq_nil_of_length_eq_zero (by have := mem_flatten_length_le cs x hx; omega)
      simp only [List.map_cons, List.flatten_cons, hceq, base64_roundtrip bytes hb]
      rw [flatten_map_decode_nil cs hrest, List.append_nil]
    · -- the first chunk covers a strict prefix of the groups
      push_neg at hbig
      rw [bytesToBase64_length] at hbig
      obtain ⟨k, hck⟩ : ∃ k, c.length = 4 * k := ⟨c.length / 4, by omega⟩
      have h3k : 3 * k < bytes.length := by omega
      have htklen : (bytes.take (3 * k)).length = 3 * k := by
        rw [List.length_take]
        omega
      have henc : bytesToBase64 bytes =
          bytesToBase64 (bytes.take (3 * k)) ++ bytesToBase64 (bytes.drop (3 * k)) := by
        conv_lhs => rw [← List.take_append_drop (3 * k) bytes]
        exact bytesToBase64_append _ _ (by rw [htklen]; omega)
      have htk4 : (bytesToBase64 (bytes.take (3 * k))).length = c.length := by
        rw [bytesToBase64_length, htklen, hck]
        omega
      have hceq : c = bytesToBase64 (bytes.take (3 * k)) := by
        have hpre : c = (bytesToBase64 bytes).take c.length := by
          rw [← hsplit, List.take_left]
        rw [hpre, henc, ← htk4, List.take_left]
      have hcseq : cs.flatten = bytesToBase64 (bytes.drop (3 * k)) := by
        have hpost : cs.flatten = (bytesToBase64 bytes).drop c.length := by
          rw [← hsplit, List.drop_left]
        rw [hpost, henc, ← htk4, List.drop_left]
      have ih := flat_decode_of_aligned cs (bytes.drop (3 * k))
        (fun b hb2 => hb b (List.mem_of_mem_drop hb2)) hcseq
        (fun x hx => halign x (by simp [hx]))
      simp only [List.map_cons, List.flatten_cons, hceq, ih,
        base64_roundtrip (bytes.take (3 * k)) (fun b hb2 => hb b (List.mem_of_mem_take hb2))]
      exact List.take_append_drop (3 * k) bytes

/-- C5: for every byte sequence (including the empty one), decoding its
Base64 encoding returns the original bytes:
`base64ToBytes (bytesToBase64 bytes) = bytes`. -/
theorem c5_base64_roundtrip (bytes : List Nat) (h : ∀ b ∈ bytes, b < 256) :
    base64ToBytes (bytesToBase64 bytes) = bytes :=
  base64_roundtrip bytes h

/-- Witness for C5 at the concrete byte sequences `[]` and `[0, 1, 255, 77]`. -/
theorem c5_base64_roundtrip_witness :
    ((∀ b ∈ ([] : List Nat), b < 256) ∧ base64ToBytes (bytesToBase64 []) = []) ∧
      ((∀ b ∈ [0, 1, 255, 77], b < 256) ∧
        base64ToBytes (bytesToBase64 [0, 1, 255, 77]) = [0, 1, 255, 77]) :=
  ⟨⟨by decide, c5_base64_roundtrip [] (by decide)⟩,
    ⟨by decide, c5_base64_roundtrip [0, 1, 255, 77] (by decide)⟩⟩

/-- C6: for every Base64 payload (the encoding of a byte sequence) and every
split of it into consecutive chunks at positions that are multiples of four
characters, combining the chunk list via `combineChunksToBytes` yields exactly
the same bytes as decoding the unsplit payload. -/
theorem c6_combine_chunks (bytes : List Nat) (chunks : List (List Char))
    (hb : ∀ b ∈ bytes, b < 256)
    (hsplit : chunks.flatten = bytesToBase64 bytes)
    (halign : ∀ c ∈ chunks, c.length % 4 = 0) :
    combineChunksToBytes chunks = base64ToBytes chunks.flatten := by
  rw [combineChunksToBytes_flat, flat_decode_of_aligned chunks bytes hb hsplit halign,
    hsplit, base64_roundtrip bytes hb]

/-- Witness for C6: the payload `dGVzdA==` split into aligned chunks
`dGVz` and `dA==`. -/
theorem c6_combine_chunks_witness :
    (∀ b ∈ [116, 101, 115, 116], b < 256) ∧
      ["dGVz".toList, "dA==".toList].flatten = bytesToBase64 [116, 101, 115, 116] ∧
      (∀ c ∈ ["dGVz".toList, "dA==".toList], c.length % 4 = 0) ∧
      combineChunksToBytes ["dGVz".toList, "dA==".toList] =
        base64ToBytes ["dGVz".toList, "dA==".toList].flatten :=
  ⟨by decide, by decide, by decide,
    c6_combine_chunks [116, 101, 115, 116] ["dGVz".toList, "dA==".toList]
      (by decide) (by decide) (by decide)⟩

example : base64ToBytes "dGVzdA==".toList = [116, 101, 115, 116] := by decide

/-! ## Kitty sequence parser (kitty-parser.ts, src/unnamed/part_000) -/

/-- The escape character. -/
def ESC : Char := Char.ofNat 27

/-- `APC_START = ESC + "_G"`, the Kitty graphics frame start marker. -/
def APC_START : List Char := [ESC, '_', 'G']

/-- `ST = ESC + "\\"`, the string terminator. -/
def ST : List Char := [ESC, '\\']

/-- `TMUX_PASSTHROUGH_START = ESC + "Ptmux;" + ESC`. -/
def TMUX_PASSTHROUGH_START : List Char := [ESC, 'P', 't', 'm', 'u', 'x', ';', ESC]

/-- Does `needle` occur in `hay` starting exactly at position `i`? -/
def isPrefixAt (hay needle : List Char) (i : Nat) : Bool :=
  needle.isPrefixOf (hay.drop i)

/-- Search positions `i, i+1, ...` (bounded by fuel) for an occurrence. -/
def findFromAux (hay needle : List Char) : Nat → Nat → Option Nat
  | _, 0 => none
  | i, fuel + 1 =>
    if isPrefixAt hay needle i then some i
    else findFromAux hay needle (i + 1) fuel

/-- JavaScript `hay.indexOf(needle, start)`: the first position at or after
`start` where `needle` occurs, `none` for -1. -/
def findFrom (hay needle : List Char) (start : Nat) : Option Nat :=
  findFromAux hay needle start (hay.length + 1 - start)

/-- JavaScript `hay.includes(needle)`. -/
def containsSub (hay needle : List Char) : Bool :=
  (findFrom hay needle 0).isSome

/-- A non-empty needle does not occur at or beyond the end of the haystack. -/
theorem isPrefixAt_false_of_ge (hay needle : List Char) (hn : needle ≠ []) (i : Nat)
    (h : hay.length ≤ i) : isPrefixAt hay needle i = false := by
  unfold isPrefixAt
  rw [List.drop_eq_nil_of_le h]
  cases needle with
  | nil => exact absurd rfl hn
  | cons c cs => rfl

/-- An occurrence of a non-empty needle fits inside the haystack. -/
theorem isPrefixAt_le_length (hay needle : List Char) (hn : needle ≠ []) (i : Nat)
    (h : isPrefixAt hay needle i = true) : i + needle.length ≤ hay.length := by
  by_cases hi : i ≤ hay.length
  · unfold isPrefixAt at h
    rw [List.isPrefixOf_iff_prefix] at h
    have hl := h.length_le
    rw [List.length_drop] at hl
    omega
  · rw [isPrefixAt_false_of_ge hay needle hn i (by omega)] at h
    exact absurd h (by simp)

/-- An occurrence is exactly the corresponding slice of the haystack. -/
theorem sliceL_of_isPrefixAt (hay needle : List Char) (i : Nat)
    (h : isPrefixAt hay needle i = true) :
    sliceL hay i (i + needle.length) = needle := by
  unfold isPrefixAt at h
  rw [List.isPrefixOf_iff_prefix] at h
  obtain ⟨t, ht⟩ := h
  unfold sliceL
  rw [List.drop_take, show i + needle.length - i = needle.length by omega, ← ht]
  exact List.take_left _ _

/-- Unfolding `isPrefixOf` on two cons cells. -/
theorem isPrefixOf_cons_cons (a b : Char) (as bs : List Char) :
    (a :: as).isPrefixOf (b :: bs) = (a == b && as.isPrefixOf bs) := rfl

/-- The empty list is a prefix of anything. -/
theorem nil_isPrefixOf (bs : List Char) : ([] : List Char).isPrefixOf bs = true := by
  cases bs <;> rfl

/-- Position-by-position reading of a two-character occurrence. -/
theorem isPrefixAt_pair (hay : List Char) (a b : Char) (i : Nat) :
    isPrefixAt hay [a, b] i = true ↔
      hay.get? i = some a ∧ hay.get? (i + 1) = some b := by
  unfold isPrefixAt
  rw [show hay.get? i = (hay.drop i).get? 0 by simp [List.get?_drop],
      show hay.get? (i + 1) = (hay.drop i).get? 1 by rw [List.get?_drop]]
  cases hd : hay.drop i with
  | nil => simp [List.isPrefixOf]
  | cons x xs =>
    cases xs with
    | nil => simp [List.isPrefixOf]
    | cons y ys =>
      rw [isPrefixOf_cons_cons, isPrefixOf_cons_cons, nil_isPrefixOf]
      simp only [List.get?_cons_zero, List.get?_cons_succ, Bool.and_true,
        Bool.and_eq_true, beq_iff_eq, Option.some.injEq]
      constructor
      · rintro ⟨h1, h2⟩; exact ⟨h1.symm, h2.symm⟩
      · rintro ⟨h1, h2⟩; exact ⟨h1.symm, h2.symm⟩

/-- Position-by-position reading of a three-character occurrence. -/
theorem isPrefixAt_triple (hay : List Char) (a b c : Char) (i : Nat) :
    isPrefixAt hay [a, b, c] i = true ↔
      hay.get? i = some a ∧ hay.get? (i + 1) = some b ∧ hay.get? (i + 2) = some c := by
  unfold isPrefixAt
  rw [show hay.get? i = (hay.drop i).get? 0 by simp [List.get?_drop],
      show hay.get? (i + 1) = (hay.drop i).get? 1 by rw [List.get?_drop],
      show hay.get? (i + 2) = (hay.drop i).get? 2 by rw [List.get?_drop]]
  cases hd : hay.drop i with
  | nil => simp [List.isPrefixOf]
  | cons x xs =>
    cases xs with
    | nil => simp [List.isPrefixOf]
    | cons y ys =>
      cases ys with
      | nil => simp [List.isPrefixOf]
      | cons z zs =>
        rw [isPrefixOf_cons_cons, isPrefixOf_cons_cons, isPrefixOf_cons_cons, nil_isPrefixOf]
        simp only [List.get?_cons_zero, List.get?_cons_succ, Bool.and_true,
          Bool.and_eq_true, beq_iff_eq, Option.some.injEq]
        constructor
        · rintro ⟨h1, h2, h3⟩; exact ⟨h1.symm, h2.symm, h3.symm⟩
        · rintro ⟨h1, h2, h3⟩; exact ⟨h1.symm, h2.symm, h3.symm⟩

/-- Characterization of a successful bounded search. -/
theorem findFromAux_some (hay needle : List Char) : ∀ (fuel i j : Nat),
    findFromAux hay needle i fuel = some j →
    i ≤ j ∧ isPrefixAt hay needle j = true ∧
      ∀ k, i ≤ k → k < j → isPrefixAt hay needle k = false
  | 0, _, _, h => by simp [findFromAux] at h
  | fuel + 1, i, j, h => by
    unfold findFromAux at h
    by_cases hp : isPrefixAt hay needle i = true
    · rw [if_pos hp] at h
      injection h with h
      subst h
      exact ⟨le_refl i, hp, fun k hk1 hk2 => absurd hk1 (by omega)⟩
    · rw [if_neg hp] at h
      obtain ⟨h1, h2, h3⟩ := findFromAux_some hay needle fuel (i + 1) j h
      refine ⟨by omega, h2, fun k hk1 hk2 => ?_⟩
      by_cases hk : k = i
      · subst hk; exact eq_false_of_ne_true hp
      · exact h3 k (by omega) hk2

/-- Characterization of a failed bounded search. -/
theorem findFromAux_none (hay needle : List Char) : ∀ (fuel i : Nat),
    findFromAux hay needle i fuel = none →
    ∀ j, i ≤ j → j < i + fuel → isPrefixAt hay needle j = false
  | 0, _, _, _, _, h2 => by omega
  | fuel + 1, i, h, j, h1, h2 => by
    unfold findFromAux at h
    by_cases hp : isPrefixAt hay needle i = true
    · rw [if_pos hp] at h; exact absurd h (by simp)
    · rw [if_neg hp] at h
      by_cases hj : j = i
      · subst hj; exact eq_false_of_ne_true hp
      · exact findFromAux_none hay needle fuel (i + 1) h j (by omega) (by omega)

/-- Characterization of `findFrom` returning a match. -/
theorem findFrom_some (hay needle : List Char) (s j : Nat)
    (h : findFrom hay needle s = some j) :
    s ≤ j ∧ isPrefixAt hay needle j = true ∧
      ∀ k, s ≤ k → k < j → isPrefixAt hay needle k = false :=
  findFromAux_some hay needle _ s j h

/-- Characterization of `findFrom` returning no match (non-empty needle). -/
theorem findFrom_none (hay needle : List Char) (hn : needle ≠ []) (s : Nat)
    (h : findFrom hay needle s = none) :
    ∀ j, s ≤ j → isPrefixAt hay needle j = false := by
  intro j hj
  by_cases hrange : j < s + (hay.length + 1 - s)
  · exact findFromAux_none hay needle _ s h j hj hrange
  · exact isPrefixAt_false_of_ge hay needle hn j (by omega)

example : base64ToBytes (bytesToBase64 [0, 255, 17, 3, 200]) = [0, 255, 17, 3, 200] := by
  decide



/-- The inner `for` loop of `unwrapTmuxPassthrough`: starting at `i`, find
the first un-doubled `ESC \` at a position below `data.length - 1`.  A
doubled `ESC` (previous character also `ESC`) is inner content: the loop body
does `i++; continue`, which together with the loop increment skips two
positions. -/
def findOuterST (data : List Char) (innerStart : Nat) : Nat → Nat → Option Nat
  | _, 0 => none
  | i, fuel + 1 =>
    if i + 1 < data.length then
      if data.get? i = some ESC ∧ data.get? (i + 1) = some '\\' then
        if innerStart < i ∧ data.get? (i - 1) = some ESC then
          findOuterST data innerStart (i + 2) fuel
        else some i
      else findOuterST data innerStart (i + 1) fuel
    else none

/-- `inner.replace(/\x1b\x1b/g, ESC)`: collapse doubled escapes left to
right. -/
def unescapeDoubledEsc : List Char → List Char
  | [] => []
  | [c] => [c]
  | c1 :: c2 :: rest =>
    if c1 = ESC ∧ c2 = ESC then ESC :: unescapeDoubledEsc rest
    else c1 :: unescapeDoubledEsc (c2 :: rest)

/-- The main loop of `unwrapTmuxPassthrough`.  At each passthrough start:
text before it is copied; if no un-doubled terminator is found the tail from
the start marker is copied as-is and the loop stops; otherwise the inner
content is unescaped and scanning resumes past the terminator. -/
def unwrapAux (data : List Char) : Nat → Nat → List Char
  | _, 0 => []
  | pos, fuel + 1 =>
    if pos < data.length then
      match findFrom data TMUX_PASSTHROUGH_START pos with
      | none => data.drop pos
      | some startIdx =>
        let innerStart := startIdx + TMUX_PASSTHROUGH_START.length
        match findOuterST data innerStart innerStart (data.length + 1) with
        | none => sliceL data pos startIdx ++ data.drop startIdx
        | some endIdx =>
          sliceL data pos startIdx ++ unescapeDoubledEsc (sliceL data innerStart endIdx) ++
            unwrapAux data (endIdx + 2) fuel
    else []

/-- `unwrapTmuxPassthrough` from the source. -/
def unwrapTmuxPassthrough (data : List Char) : List Char :=
  unwrapAux data 0 (data.length + 1)

/-- One parsed frame: its start/end offsets in the working text and the
control/payload split of its interior (`parseSequence` splits at the first
semicolon; the key=value field decoding of `paramsToCommand` never throws and
is not needed by the claims, so the model records the split strings). -/
structure RawCmd where
  startIndex : Nat
  endIndex : Nat
  control : List Char
  payload : List Char
deriving DecidableEq, Repr

/-- `parseSequence`: split the frame interior at the first `;` into control
data and payload (no semicolon: all control, empty payload). -/
def parseSeqModel (content : List Char) (s e : Nat) : RawCmd :=
  match findFrom content [';'] 0 with
  | none => ⟨s, e, content, []⟩
  | some i => ⟨s, e, content.take i, content.drop (i + 1)⟩

/-- The frame-scanning loop of `KittyParser.extract`, returning
(cleanedData, commands, pendingData).  Text before a frame start goes to the
cleaned text; a start marker with no terminator buffers the tail from the
start marker as pending; a complete frame is parsed and scanning resumes
past its terminator. -/
def scanAux (full : List Char) : Nat → Nat → List Char × List RawCmd × List Char
  | _, 0 => ([], [], [])
  | pos, fuel + 1 =>
    if pos < full.length then
      match findFrom full APC_START pos with
      | none => (full.drop pos, [], [])
      | some s =>
        match findFrom full ST s with
        | none => (sliceL full pos s, [], full.drop s)
        | some e =>
          let content := sliceL full (s + APC_START.length) e
          let r := scanAux full (e + ST.length) fuel
          (sliceL full pos s ++ r.1,
            parseSeqModel content s (e + ST.length) :: r.2.1, r.2.2)
    else ([], [], [])

/-- Result of `KittyParser.extract`, together with the parser pending-buffer
state after the call (a class field in the source). -/
structure ExtractResult where
  cleanedData : List Char
  commands : List RawCmd
  hasGraphics : Bool
  fullData : List Char
  pendingData : List Char
deriving DecidableEq, Repr

/-- `KittyParser.extract pendingData data`: prepend the pending buffer, unwrap
tmux passthrough when the working text contains its start marker, then scan
for frames. -/
def extract (pendingData data : List Char) : ExtractResult :=
  let full0 := pendingData ++ data
  let full := if containsSub full0 TMUX_PASSTHROUGH_START then
      unwrapTmuxPassthrough full0
    else full0
  let r := scanAux full 0 (full.length + 1)
  ⟨r.1, r.2.1, !r.2.1.isEmpty, full, r.2.2⟩

/-- `lastEnd` accumulator of `processDataSequentially`: the end offset of the
last command, starting from 0. -/
def lastEnd : Nat → List RawCmd → Nat
  | pos, [] => pos
  | _, c :: cs => lastEnd c.endIndex cs

/-- The return value of `GraphicsManager.processDataSequentially`: the text
after the last command, truncated at the first frame start marker when the
parser still holds pending data. -/
def processDataSequentially (r : ExtractResult) : List Char :=
  let remaining := r.fullData.drop (lastEnd 0 r.commands)
  if r.pendingData.isEmpty then remaining
  else
    match findFrom remaining APC_START 0 with
    | some i => remaining.take i
    | none => remaining

example :
    extract [] ("before".toList ++ APC_START ++ "a=T;data".toList ++ ST ++ "after".toList) =
      ⟨"beforeafter".toList,
        [⟨6, 19, "a=T".toList, "data".toList⟩], true,
        "before".toList ++ APC_START ++ "a=T;data".toList ++ ST ++ "after".toList, []⟩ := by
  decide

example :
    (extract [] (APC_START ++ "a=T,f=100;dGVzdA==".toList ++ ST)).cleanedData = [] ∧
    (extract [] (APC_START ++ "a=T,f=100;dGVzdA==".toList ++ ST)).commands =
      [⟨0, 23, "a=T,f=100".toList, "dGVzdA==".toList⟩] := by
  constructor <;> decide

example :
    extract [] ([ESC, 'P', 't', 'm', 'u', 'x', ';', ESC, ESC, ESC, '_', 'G', 'a', '=',
        'T', ';', 'd', ESC, ESC, '\\', ESC, '\\']) =
      ⟨[], [⟨0, 10, ['a', '=', 'T'], ['d']⟩], true,
        [ESC, '_', 'G', 'a', '=', 'T', ';', 'd', ESC, '\\'], []⟩ := by
  decide

/-! ### Structural invariants of the frame scanner (for C1 and C10) -/

/-- The concatenation of the slices of `full` outside the command ranges,
from `pos` up to `stop`. -/
def outside (full : List Char) : Nat → List RawCmd → Nat → List Char
  | pos, [], stop => sliceL full pos stop
  | pos, c :: cs, stop => sliceL full pos c.startIndex ++ outside full c.endIndex cs stop

/-- Command ranges are in order, pairwise disjoint, at least five characters
long, and start at or after `pos`. -/
def increasingB : Nat → List RawCmd → Bool
  | _, [] => true
  | pos, c :: cs =>
    decide (pos ≤ c.startIndex) && decide (c.startIndex + 5 ≤ c.endIndex) &&
      increasingB c.endIndex cs

/-- A command range is well-formed: it starts with the frame start marker,
ends with the terminator, fits in the text, and its slice decomposes as
start marker, interior, terminator. -/
def goodCmdB (full : List Char) (c : RawCmd) : Bool :=
  isPrefixAt full APC_START c.startIndex &&
    isPrefixAt full ST (c.endIndex - 2) &&
    decide (c.startIndex + 5 ≤ c.endIndex) &&
    decide (c.endIndex ≤ full.length) &&
    decide (sliceL full c.startIndex c.endIndex =
      APC_START ++ sliceL full (c.startIndex + 3) (c.endIndex - 2) ++ ST)

/-- `parseSeqModel` keeps the given start offset. -/
theorem parseSeqModel_start (content : List Char) (s e : Nat) :
    (parseSeqModel content s e).startIndex = s := by
  unfold parseSeqModel
  cases findFrom content [';'] 0 <;> rfl

/-- `parseSeqModel` keeps the given end offset. -/
theorem parseSeqModel_end (content : List Char) (s e : Nat) :
    (parseSeqModel content s e).endIndex = e := by
  unfold parseSeqModel
  cases findFrom content [';'] 0 <;> rfl

/-- Slices of adjacent ranges concatenate. -/
theorem sliceL_split (l : List Char) (a b c : Nat) (hab : a ≤ b) (hbc : b ≤ c) :
    sliceL l a c = sliceL l a b ++ sliceL l b c := by
  unfold sliceL
  rw [List.drop_take, List.drop_take, List.drop_take,
    show c - a = (b - a) + (c - b) by omega, List.take_add, List.drop_drop,
    show a + (b - a) = b by omega]

/-- A slice ending at the text length is a drop. -/
theorem sliceL_to_end (l : List Char) (a : Nat) : sliceL l a l.length = l.drop a := by
  unfold sliceL
  rw [List.take_length]

/-- The frame terminator cannot occur at the start marker or inside it. -/
theorem st_ge_apc_add3 (full : List Char) (s e : Nat)
    (hapc : isPrefixAt full APC_START s = true)
    (hst : isPrefixAt full ST e = true) (hse : s ≤ e) : s + 3 ≤ e := by
  obtain ⟨ha0, ha1, ha2⟩ := (isPrefixAt_triple full ESC '_' 'G' s).mp hapc
  obtain ⟨he0, he1⟩ := (isPrefixAt_pair full ESC '\\' e).mp hst
  have hcase : e = s ∨ e = s + 1 ∨ e = s + 2 ∨ s + 3 ≤ e := by omega
  rcases hcase with h | h | h | h
  · subst h
    rw [he1] at ha1
    simp at ha1
  · subst h
    rw [he0] at ha1
    simp [ESC] at ha1
  · subst h
    rw [he0] at ha2
    simp [ESC] at ha2
  · exact h

/-- Master invariant of the frame-scanning loop: the pending buffer is a
suffix of the working text beginning at some `stop`; the cleaned text is the
concatenation of the slices outside the command ranges up to `stop`; the
command ranges are ordered, disjoint and well-formed; when there is pending
data, `stop` carries a start marker with no terminator at or after it and no
start marker occurs between the last command and `stop`; when there is none,
every start marker at or after `pos` has a terminator after it. -/
theorem scanAux_spec (full : List Char) : ∀ (fuel pos : Nat) (cl : List Char)
    (cmds : List RawCmd) (pend : List Char),
    full.length < pos + fuel → pos ≤ full.length →
    scanAux full pos fuel = (cl, cmds, pend) →
    ∃ stop : Nat,
      pend = full.drop stop ∧
      pos ≤ lastEnd pos cmds ∧ lastEnd pos cmds ≤ stop ∧ stop ≤ full.length ∧
      cl = outside full pos cmds stop ∧
      increasingB pos cmds = true ∧
      (∀ c ∈ cmds, goodCmdB full c = true) ∧
      (pend ≠ [] →
        isPrefixAt full APC_START stop = true ∧
        (∀ e, stop ≤ e → isPrefixAt full ST e = false) ∧
        (∀ p, lastEnd pos cmds ≤ p → p < stop → isPrefixAt full APC_START p = false)) ∧
      (pend = [] → stop = full.length ∧
        (∀ p, pos ≤ p → isPrefixAt full APC_START p = true →
          ∃ e, p ≤ e ∧ isPrefixAt full ST e = true)) := by
  intro fuel
  induction fuel with
  | zero => intro pos cl cmds pend hfuel hpos _; omega
  | succ fuel ih =>
    intro pos cl cmds pend hfuel hpos hEq
    by_cases hlt : pos < full.length
    · rcases hAPC : findFrom full APC_START pos with _ | s
      · -- no more frame start markers: rest of the text is cleaned
        simp only [scanAux, if_pos hlt, hAPC, Prod.mk.injEq] at hEq
        obtain ⟨h1, h2, h3⟩ := hEq
        subst h1; subst h2; subst h3
        refine ⟨full.length, by simp, le_refl _, by simpa [lastEnd] using hpos, le_refl _,
          by rw [outside, sliceL_to_end], rfl, by simp, by simp, fun _ => ⟨rfl, ?_⟩⟩
        intro p hp hap
        rw [findFrom_none full APC_START (by simp [APC_START]) pos hAPC p hp] at hap
        exact absurd hap (by simp)
      · obtain ⟨hs1, hs2, hs3⟩ := findFrom_some full APC_START pos s hAPC
        have hslen : s + 3 ≤ full.length := by
          have := isPrefixAt_le_length full APC_START (by simp [APC_START]) s hs2
          simpa [APC_START] using this
        rcases hST : findFrom full ST s with _ | e
        · -- start marker with no terminator: buffer the tail as pending
          simp only [scanAux, if_pos hlt, hAPC, hST, Prod.mk.injEq] at hEq
          obtain ⟨h1, h2, h3⟩ := hEq
          subst h1; subst h2; subst h3
          refine ⟨s, rfl, le_refl pos, by simpa [lastEnd] using hs1, by omega,
            by rw [outside], rfl, by simp, fun _ => ⟨hs2, ?_, ?_⟩, fun hnil => ?_⟩
          · exact fun e he => findFrom_none full ST (by simp [ST]) s hST e he
          · intro p hp1 hp2
            exact hs3 p (by simpa [lastEnd] using hp1) hp2
          · exfalso
            have := List.drop_eq_nil_iff_le.mp hnil
            omega
        · -- complete frame: consume it and continue past the terminator
          obtain ⟨he1, he2, he3⟩ := findFrom_some full ST s e hST
          have he4 : s + 3 ≤ e := st_ge_apc_add3 full s e hs2 he2 he1
          have helen : e + 2 ≤ full.length := by
            have := isPrefixAt_le_length full ST (by simp [ST]) e he2
            simpa [ST] using this
          simp only [scanAux, if_pos hlt, hAPC, hST, Prod.mk.injEq,
            show APC_START.length = 3 from rfl, show ST.length = 2 from rfl] at hEq
          obtain ⟨h1, h2, h3⟩ := hEq
          obtain ⟨stop, ih1, ih2, ih3, ih4, ih5, ih6, ih7, ih8, ih9⟩ :=
            ih (e + 2) (scanAux full (e + 2) fuel).1 (scanAux full (e + 2) fuel).2.1
              (scanAux full (e + 2) fuel).2.2 (by omega) (by omega) rfl
          subst h1; subst h2; subst h3
          have hcmdstart : (parseSeqModel (sliceL full (s + 3) e) s
              (e + 2)).startIndex = s := parseSeqModel_start _ _ _
          have hcmdend : (parseSeqModel (sliceL full (s + 3) e) s
              (e + 2)).endIndex = e + 2 := parseSeqModel_end _ _ _
          have hlastEq : lastEnd pos (parseSeqModel (sliceL full (s + 3) e) s
              (e + 2) :: (scanAux full (e + 2) fuel).2.1) =
              lastEnd (e + 2) (scanAux full (e + 2) fuel).2.1 := by
            rw [lastEnd, hcmdend]
          refine ⟨stop, ?_, ?_, ?_, ih4, ?_, ?_, ?_, ?_, ?_⟩
          · exact ih1
          · rw [hlastEq]; omega
          · rw [hlastEq]; exact ih3
          · rw [outside, hcmdstart, hcmdend, ← ih5]
          · rw [increasingB, hcmdstart, hcmdend]
            simp only [Bool.and_eq_true, decide_eq_true_eq]
            exact ⟨⟨hs1, by omega⟩, ih6⟩
          · intro c hc
            rcases List.mem_cons.mp hc with h | h
            · subst h
              unfold goodCmdB
              rw [hcmdstart, hcmdend]
              simp only [Bool.and_eq_true, decide_eq_true_eq]
              refine ⟨⟨⟨⟨hs2, by simpa using he2⟩, by omega⟩, by omega⟩, ?_⟩
              rw [show e + 2 - 2 = e by omega,
                sliceL_split full s (s + 3) (e + 2) (by omega) (by omega),
                sliceL_split full (s + 3) e (e + 2) (by omega) (by omega),
                show sliceL full s (s + 3) = APC_START by
                  simpa [APC_START] using sliceL_of_isPrefixAt full APC_START s hs2,
                show sliceL full e (e + 2) = ST by
                  simpa [ST] using sliceL_of_isPrefixAt full ST e he2]
              simp
            · exact ih7 c h
          · intro hne
            obtain ⟨hp1, hp2, hp3⟩ := ih8 hne
            refine ⟨hp1, hp2, ?_⟩
            rw [hlastEq]
            exact hp3
          · intro hnil
            obtain ⟨hq1, hq2⟩ := ih9 hnil
            refine ⟨hq1, ?_⟩
            intro p hp hap
            by_cases hpe : e + 2 ≤ p
            · exact hq2 p hpe hap
            · by_cases hpe2 : p ≤ e
              · exact ⟨e, by omega, he2⟩
              · exfalso
                have hpeq : p = e + 1 := by omega
                subst hpeq
                obtain ⟨ha0, _, _⟩ := (isPrefixAt_triple full ESC '_' 'G' (e + 1)).mp hap
                obtain ⟨_, hb1⟩ := (isPrefixAt_pair full ESC '\\' e).mp he2
                rw [hb1] at ha0
                simp [ESC] at ha0
    · -- pos = full.length: the loop body is not entered
      have hpe : pos = full.length := by omega
      simp only [scanAux, if_neg hlt, Prod.mk.injEq] at hEq
      obtain ⟨h1, h2, h3⟩ := hEq
      subst h1; subst h2; subst h3
      refine ⟨full.length, by simp, le_refl _, by simpa [lastEnd] using hpos, le_refl _,
        by rw [outside, sliceL_to_end, hpe, List.drop_length], rfl, by simp, by simp,
        fun _ => ⟨rfl, ?_⟩⟩
      intro p hp hap
      rw [isPrefixAt_false_of_ge full APC_START (by simp [APC_START]) p (by omega)] at hap
      exact absurd hap (by simp)

/-- Occurrence testing commutes with dropping a prefix. -/
theorem isPrefixAt_drop (full needle : List Char) (d j : Nat) :
    isPrefixAt (full.drop d) needle j = isPrefixAt full needle (d + j) := by
  unfold isPrefixAt
  rw [List.drop_drop]

/-- `findFrom` returns the position that matches with no earlier match. -/
theorem findFrom_eq_some (hay needle : List Char) (hn : needle ≠ []) (s k : Nat)
    (hk1 : s ≤ k) (hk2 : isPrefixAt hay needle k = true)
    (hk3 : ∀ j, s ≤ j → j < k → isPrefixAt hay needle j = false) :
    findFrom hay needle s = some k := by
  rcases h : findFrom hay needle s with _ | j
  · rw [findFrom_none hay needle hn s h k hk1] at hk2
    exact absurd hk2 (by simp)
  · obtain ⟨hj1, hj2, hj3⟩ := findFrom_some hay needle s j h
    have : j = k := by
      by_contra hne
      rcases Nat.lt_or_ge j k with hlt | hge
      · rw [hk3 j hj1 hlt] at hj2
        exact absurd hj2 (by simp)
      · rw [hj3 k hk1 (by omega)] at hk2
        exact absurd hk2 (by simp)
    rw [this]

/-- The scanner facts carried to the `extract` entry point. -/
theorem extract_spec (pendingData data : List Char) :
    ∃ stop : Nat,
      (extract pendingData data).pendingData =
        (extract pendingData data).fullData.drop stop ∧
      lastEnd 0 (extract pendingData data).commands ≤ stop ∧
      stop ≤ (extract pendingData data).fullData.length ∧
      (extract pendingData data).cleanedData =
        outside (extract pendingData data).fullData 0
          (extract pendingData data).commands stop ∧
      increasingB 0 (extract pendingData data).commands = true ∧
      (∀ c ∈ (extract pendingData data).commands,
        goodCmdB (extract pendingData data).fullData c = true) ∧
      ((extract pendingData data).pendingData ≠ [] →
        isPrefixAt (extract pendingData data).fullData APC_START stop = true ∧
        (∀ e, stop ≤ e →
          isPrefixAt (extract pendingData data).fullData ST e = false) ∧
        (∀ p, lastEnd 0 (extract pendingData data).commands ≤ p → p < stop →
          isPrefixAt (extract pendingData data).fullData APC_START p = false)) ∧
      ((extract pendingData data).pendingData = [] →
        stop = (extract pendingData data).fullData.length ∧
        (∀ p, isPrefixAt (extract pendingData data).fullData APC_START p = true →
          ∃ e, p ≤ e ∧
            isPrefixAt (extract pendingData data).fullData ST e = true)) := by
  simp only [extract]
  obtain ⟨stop, h1, _, h3, h4, h5, h6, h7, h8, h9⟩ :=
    scanAux_spec
      (if containsSub (pendingData ++ data) TMUX_PASSTHROUGH_START then
        unwrapTmuxPassthrough (pendingData ++ data)
      else pendingData ++ data)
      ((if containsSub (pendingData ++ data) TMUX_PASSTHROUGH_START then
        unwrapTmuxPassthrough (pendingData ++ data)
      else pendingData ++ data).length + 1) 0 _ _ _ (by omega) (by omega) rfl
  exact ⟨stop, h1, h3, h4, h5, h6, h7,
    fun hne => h8 hne,
    fun hnil => ⟨(h9 hnil).1, fun p hp => (h9 hnil).2 p (Nat.zero_le p) hp⟩⟩

/-- C10: in every `ExtractResult`, each command range `[startIndex, endIndex)`
slices `fullData` to a string that begins with the frame start marker
`ESC _ G` and ends with the terminator `ESC \\`; the ranges are pairwise
disjoint and strictly increasing; and `cleanedData` is the concatenation of
the `fullData` segments outside those ranges, excluding the buffered pending
tail (the suffix of length `pendingData.length`). -/
theorem c10_extract_offset_validity (pendingData data : List Char) :
    increasingB 0 (extract pendingData data).commands = true ∧
    (∀ c ∈ (extract pendingData data).commands,
      goodCmdB (extract pendingData data).fullData c = true) ∧
    (extract pendingData data).cleanedData =
      outside (extract pendingData data).fullData 0 (extract pendingData data).commands
        ((extract pendingData data).fullData.length -
          (extract pendingData data).pendingData.length) ∧
    (extract pendingData data).pendingData =
      (extract pendingData data).fullData.drop
        ((extract pendingData data).fullData.length -
          (extract pendingData data).pendingData.length) := by
  obtain ⟨stop, h1, h2, h3, h4, h5, h6, _, _⟩ := extract_spec pendingData data
  have hstop : (extract pendingData data).fullData.length -
      (extract pendingData data).pendingData.length = stop := by
    have := congrArg List.length h1
    rw [List.length_drop] at this
    omega
  rw [hstop]
  exact ⟨h5, h6, h4, h1⟩

/-- Witness for C10 at a concrete chunk holding one complete frame, literal
text, and a partial frame tail. -/
theorem c10_extract_offset_validity_witness :
    increasingB 0 (extract [] ("A".toList ++ APC_START ++ "a=T;x".toList ++ ST ++
        "B".toList ++ APC_START ++ "a=q".toList)).commands = true ∧
    (∀ c ∈ (extract [] ("A".toList ++ APC_START ++ "a=T;x".toList ++ ST ++
        "B".toList ++ APC_START ++ "a=q".toList)).commands,
      goodCmdB (extract [] ("A".toList ++ APC_START ++ "a=T;x".toList ++ ST ++
        "B".toList ++ APC_START ++ "a=q".toList)).fullData c = true) ∧
    (extract [] ("A".toList ++ APC_START ++ "a=T;x".toList ++ ST ++
        "B".toList ++ APC_START ++ "a=q".toList)).cleanedData =
      outside (extract [] ("A".toList ++ APC_START ++ "a=T;x".toList ++ ST ++
          "B".toList ++ APC_START ++ "a=q".toList)).fullData 0
        (extract [] ("A".toList ++ APC_START ++ "a=T;x".toList ++ ST ++
          "B".toList ++ APC_START ++ "a=q".toList)).commands
        ((extract [] ("A".toList ++ APC_START ++ "a=T;x".toList ++ ST ++
            "B".toList ++ APC_START ++ "a=q".toList)).fullData.length -
          (extract [] ("A".toList ++ APC_START ++ "a=T;x".toList ++ ST ++
            "B".toList ++ APC_START ++ "a=q".toList)).pendingData.length) ∧
    (extract [] ("A".toList ++ APC_START ++ "a=T;x".toList ++ ST ++
        "B".toList ++ APC_START ++ "a=q".toList)).pendingData =
      (extract [] ("A".toList ++ APC_START ++ "a=T;x".toList ++ ST ++
          "B".toList ++ APC_START ++ "a=q".toList)).fullData.drop
        ((extract [] ("A".toList ++ APC_START ++ "a=T;x".toList ++ ST ++
            "B".toList ++ APC_START ++ "a=q".toList)).fullData.length -
          (extract [] ("A".toList ++ APC_START ++ "a=T;x".toList ++ ST ++
            "B".toList ++ APC_START ++ "a=q".toList)).pendingData.length) :=
  c10_extract_offset_validity [] ("A".toList ++ APC_START ++ "a=T;x".toList ++ ST ++
    "B".toList ++ APC_START ++ "a=q".toList)

/-- C1: a protocol frame whose end marker has not yet arrived is never
surfaced as literal text.  If the working text contains a frame start marker
with no terminator at or after it, the parser buffers a pending tail; and
whenever pending data is held, the pending tail is exactly the working text
from some start-marker position `s` onward (with no terminator after `s`),
the cleaned text consists only of segments before `s` (outside the command
ranges), and the sequential path of `processData` returns the text between
the last command and `s` — truncating the tail at the partial frame start
marker. -/
theorem c1_partial_frame_buffered (pendingData data : List Char) :
    ((∃ p < (extract pendingData data).fullData.length,
        isPrefixAt (extract pendingData data).fullData APC_START p = true ∧
        ∀ e < (extract pendingData data).fullData.length, p ≤ e →
          isPrefixAt (extract pendingData data).fullData ST e = false) →
      (extract pendingData data).pendingData ≠ []) ∧
    ((extract pendingData data).pendingData ≠ [] →
      ∃ s : Nat,
        (extract pendingData data).pendingData =
          (extract pendingData data).fullData.drop s ∧
        isPrefixAt (extract pendingData data).fullData APC_START s = true ∧
        (∀ e, s ≤ e → isPrefixAt (extract pendingData data).fullData ST e = false) ∧
        (extract pendingData data).cleanedData =
          outside (extract pendingData data).fullData 0
            (extract pendingData data).commands s ∧
        lastEnd 0 (extract pendingData data).commands ≤ s ∧
        processDataSequentially (extract pendingData data) =
          sliceL (extract pendingData data).fullData
            (lastEnd 0 (extract pendingData data).commands) s) := by
  obtain ⟨stop, h1, h2, h3, h4, h5, h6, h8, h9⟩ := extract_spec pendingData data
  constructor
  · rintro ⟨p, hp, hap, hst⟩ hnil
    obtain ⟨_, hall⟩ := h9 hnil
    obtain ⟨e, hpe, hste⟩ := hall p hap
    rcases Nat.lt_or_ge e (extract pendingData data).fullData.length with hlt | hge
    · rw [hst e hlt hpe] at hste
      exact absurd hste (by simp)
    · rw [isPrefixAt_false_of_ge _ ST (by simp [ST]) e hge] at hste
      exact absurd hste (by simp)
  · intro hne
    obtain ⟨hA, hB, hC⟩ := h8 hne
    refine ⟨stop, h1, hA, hB, h4, h2, ?_⟩
    unfold processDataSequentially
    rw [if_neg (by simpa using hne)]
    rw [findFrom_eq_some _ APC_START (by simp [APC_START]) 0
      (stop - lastEnd 0 (extract pendingData data).commands) (Nat.zero_le _) ?hmatch ?hmin]
    case hmatch =>
      rw [isPrefixAt_drop,
        show lastEnd 0 (extract pendingData data).commands +
          (stop - lastEnd 0 (extract pendingData data).commands) = stop by omega]
      exact hA
    case hmin =>
      intro j _ hj
      rw [isPrefixAt_drop]
      exact hC _ (by omega) (by omega)
    unfold sliceL
    rw [List.drop_take]

/-- Witness for C1 at a chunk ending in a partial frame. -/
theorem c1_partial_frame_buffered_witness :
    (extract [] ("A".toList ++ APC_START ++ "a=T;x".toList ++ ST ++
        "B".toList ++ APC_START ++ "a=q".toList)).pendingData ≠ [] ∧
    ((extract [] ("A".toList ++ APC_START ++ "a=T;x".toList ++ ST ++
        "B".toList ++ APC_START ++ "a=q".toList)).pendingData ≠ [] →
      ∃ s : Nat,
        (extract [] ("A".toList ++ APC_START ++ "a=T;x".toList ++ ST ++
            "B".toList ++ APC_START ++ "a=q".toList)).pendingData =
          (extract [] ("A".toList ++ APC_START ++ "a=T;x".toList ++ ST ++
            "B".toList ++ APC_START ++ "a=q".toList)).fullData.drop s ∧
        isPrefixAt (extract [] ("A".toList ++ APC_START ++ "a=T;x".toList ++ ST ++
            "B".toList ++ APC_START ++ "a=q".toList)).fullData APC_START s = true ∧
        (∀ e, s ≤ e → isPrefixAt (extract [] ("A".toList ++ APC_START ++
            "a=T;x".toList ++ ST ++ "B".toList ++ APC_START ++
            "a=q".toList)).fullData ST e = false) ∧
        (extract [] ("A".toList ++ APC_START ++ "a=T;x".toList ++ ST ++
            "B".toList ++ APC_START ++ "a=q".toList)).cleanedData =
          outside (extract [] ("A".toList ++ APC_START ++ "a=T;x".toList ++ ST ++
              "B".toList ++ APC_START ++ "a=q".toList)).fullData 0
            (extract [] ("A".toList ++ APC_START ++ "a=T;x".toList ++ ST ++
              "B".toList ++ APC_START ++ "a=q".toList)).commands s ∧
        lastEnd 0 (extract [] ("A".toList ++ APC_START ++ "a=T;x".toList ++ ST ++
            "B".toList ++ APC_START ++ "a=q".toList)).commands ≤ s ∧
        processDataSequentially (extract [] ("A".toList ++ APC_START ++
            "a=T;x".toList ++ ST ++ "B".toList ++ APC_START ++ "a=q".toList)) =
          sliceL (extract [] ("A".toList ++ APC_START ++ "a=T;x".toList ++ ST ++
              "B".toList ++ APC_START ++ "a=q".toList)).fullData
            (lastEnd 0 (extract [] ("A".toList ++ APC_START ++ "a=T;x".toList ++ ST ++
              "B".toList ++ APC_START ++ "a=q".toList)).commands) s) :=
  ⟨by decide,
    (c1_partial_frame_buffered [] ("A".toList ++ APC_START ++ "a=T;x".toList ++ ST ++
      "B".toList ++ APC_START ++ "a=q".toList)).2⟩

/-- C4 (code evaluated at the failing input): a chunk that is exactly the
tmux passthrough start marker — a wrapper whose terminator has not arrived,
with no un-doubled `ESC \\` after the marker — is returned entirely as
cleaned literal text and nothing is buffered as pending, contradicting the
spec ("retain the untouched tail as pending and stop") and the source
comment ("Incomplete passthrough, keep as-is for next chunk").  The second
conjunct shows a longer such chunk: the wrapper prefix leaks into the
cleaned text and the pending buffer holds a partially-unwrapped fragment,
not the untouched tail from the wrapper start marker. -/
theorem c4_incomplete_wrapper_not_buffered :
    ((extract [] TMUX_PASSTHROUGH_START).pendingData = [] ∧
      (extract [] TMUX_PASSTHROUGH_START).cleanedData = TMUX_PASSTHROUGH_START) ∧
    ((extract [] (TMUX_PASSTHROUGH_START ++ [ESC, ESC, '_', 'G', 'a'])).cleanedData =
        TMUX_PASSTHROUGH_START ++ [ESC] ∧
      (extract [] (TMUX_PASSTHROUGH_START ++ [ESC, ESC, '_', 'G', 'a'])).pendingData =
        [ESC, '_', 'G', 'a']) := by
  constructor
  · constructor <;> decide
  · constructor <;> decide

/-! ## Graphics storage (src/lib/graphics/graphics-storage.ts)

JavaScript `Map`s are modelled as insertion-ordered association lists and
`Set`s as insertion-ordered duplicate-free lists, matching JS iteration
order.  `Uint8Array` image data is modelled by its length (`dataLen`): no
claim depends on pixel contents.  Row, column and z-index values are `Int`.
-/

/-- `Map.get`: the first entry with the key. -/
def mGet {α β : Type} [DecidableEq α] : List (α × β) → α → Option β
  | [], _ => none
  | (k, v) :: t, key => if k = key then some v else mGet t key

/-- `Map.set`: update the entry in place keeping its position, else append. -/
def mSet {α β : Type} [DecidableEq α] : List (α × β) → α → β → List (α × β)
  | [], key, v => [(key, v)]
  | (k, w) :: t, key, v => if k = key then (key, v) :: t else (k, w) :: mSet t key v

/-- `Map.delete`: remove the entry with the key. -/
def mDel {α β : Type} [DecidableEq α] : List (α × β) → α → List (α × β)
  | [], _ => []
  | (k, w) :: t, key => if k = key then t else (k, w) :: mDel t key

/-- `Set.add` on an insertion-ordered set. -/
def sAdd {α : Type} [DecidableEq α] (l : List α) (x : α) : List α :=
  if x ∈ l then l else l ++ [x]

/-- A stored image (`StoredImage` in types.ts).  `dataLen` is the length of
the `data : Uint8Array`. -/
structure StoredImage where
  id : Nat
  format : Nat
  width : Nat
  height : Nat
  dataLen : Nat
  hasBitmap : Bool
  byteSize : Nat
  lastAccessed : Nat
deriving DecidableEq, Repr

/-- An image placement (`ImagePlacement` in types.ts); `image` is a snapshot
of the referenced stored image (reference aliasing is not needed by the
claims). -/
structure ImagePlacement where
  id : List Char
  imageId : Nat
  placementId : Nat
  bufferRow : Int
  bufferCol : Int
  offsetX : Int
  offsetY : Int
  displayWidth : Int
  displayHeight : Int
  srcX : Int
  srcY : Int
  srcWidth : Int
  srcHeight : Int
  zIndex : Int
  image : StoredImage
deriving DecidableEq, Repr

instance : Inhabited StoredImage := ⟨⟨0, 0, 0, 0, 0, false, 0, 0⟩⟩

instance : Inhabited ImagePlacement :=
  ⟨⟨[], 0, 0, 0, 0, 0, 0, 0, 0, 0, 0, 0, 0, 0, default⟩⟩

/-- A chunk accumulation buffer (`ChunkBuffer` in types.ts; the optional
`transmission` field is never written by the storage code and is omitted). -/
structure ChunkBuffer where
  imageId : Nat
  format : Nat
  width : Option Nat
  height : Option Nat
  compression : Option Char
  chunks : List (List Char)
deriving DecidableEq, Repr

/-- The state of a `GraphicsStorage` object. -/
structure GraphicsStorage where
  images : List (Nat × StoredImage)
  accessOrder : List Nat
  placements : List (List Char × ImagePlacement)
  placementsByRow : List (Int × List (List Char))
  chunkBuffers : List (Nat × ChunkBuffer)
  memoryUsage : Int
  maxMemory : Nat
  maxImages : Nat
  maxPlacements : Nat
deriving DecidableEq, Repr

/-- The constructor with explicit options. -/
def mkStorage (maxCacheMemory maxImages maxPlacements : Nat) : GraphicsStorage :=
  ⟨[], [], [], [], [], 0, maxCacheMemory, maxImages, maxPlacements⟩

/-- `removePlacement`: remove the key from its row set (dropping the row
entry when the set empties), then from the placement map.  Returns whether a
placement was removed. -/
def removePlacement (key : List Char) (st : GraphicsStorage) :
    Bool × GraphicsStorage :=
  match mGet st.placements key with
  | none => (false, st)
  | some p =>
    let st1 :=
      match mGet st.placementsByRow p.bufferRow with
      | none => st
      | some rowSet =>
        let rowSet' := rowSet.erase key
        if rowSet'.isEmpty then
          { st with placementsByRow := mDel st.placementsByRow p.bufferRow }
        else
          { st with placementsByRow := mSet st.placementsByRow p.bufferRow rowSet' }
    (true, { st1 with placements := mDel st1.placements key })

/-- `removeImage`: release the bitmap (a browser resource, no model state),
cascade-remove every placement whose `imageId` matches (the JS `for...of`
over the live map deletes only the visited key, so iterating a snapshot is
equivalent), subtract the byte size, drop the id from the access order
(`indexOf` + `splice`), and delete the map entry. -/
def removeImage (id : Nat) (st : GraphicsStorage) : Bool × GraphicsStorage :=
  match mGet st.images id with
  | none => (false, st)
  | some image =>
    let st1 := st.placements.foldl
      (fun acc kp => if kp.2.imageId = id then (removePlacement kp.1 acc).2 else acc) st
    (true, { st1 with
      memoryUsage := st1.memoryUsage - image.byteSize,
      accessOrder := st1.accessOrder.erase id,
      images := mDel st1.images id })

/-- The image-count eviction loop of `evictIfNeeded`.  The fuel bounds the
loop; when `accessOrder` lists exactly the stored ids each iteration removes
the head, so `accessOrder.length` iterations always suffice (on a
desynchronized state the JS loop would not terminate at all). -/
def evictCountLoop : Nat → GraphicsStorage → GraphicsStorage
  | 0, st => st
  | fuel + 1, st =>
    match st.accessOrder with
    | [] => st
    | lru :: _ =>
      if st.maxImages ≤ st.images.length then
        evictCountLoop fuel (removeImage lru st).2
      else st

/-- The byte-budget eviction loop of `evictIfNeeded`. -/
def evictMemLoop (additionalBytes : Nat) : Nat → GraphicsStorage → GraphicsStorage
  | 0, st => st
  | fuel + 1, st =>
    match st.accessOrder with
    | [] => st
    | lru :: _ =>
      if (st.maxMemory : Int) < st.memoryUsage + additionalBytes then
        evictMemLoop additionalBytes fuel (removeImage lru st).2
      else st

/-- `evictIfNeeded`: the count pass, then the byte-budget pass. -/
def evictIfNeeded (additionalBytes : Nat) (st : GraphicsStorage) : GraphicsStorage :=
  evictMemLoop additionalBytes (st.accessOrder.length + 1)
    (evictCountLoop (st.accessOrder.length + 1) st)

/-- `storeImage`: evict if needed, replace an existing entry with the same
id, then insert with `byteSize = data.length + (bitmap ? width * height * 4
: 0)` and `lastAccessed = Date.now()` (passed as `now`). -/
def storeImage (id format width height dataLen : Nat) (hasBitmap : Bool)
    (now : Nat) (st : GraphicsStorage) : StoredImage × GraphicsStorage :=
  let st1 := evictIfNeeded dataLen st
  let st2 := if (mGet st1.images id).isSome then (removeImage id st1).2 else st1
  let image : StoredImage :=
    ⟨id, format, width, height, dataLen, hasBitmap,
      dataLen + (if hasBitmap then width * height * 4 else 0), now⟩
  (image, { st2 with
    images := mSet st2.images id image,
    accessOrder := st2.accessOrder ++ [id],
    memoryUsage := st2.memoryUsage + image.byteSize })

/-- `getImage`: touch `lastAccessed` (the object is mutated in place, so the
map entry keeps its position) and move the id to the most-recently-used end
of the access order. -/
def getImage (id : Nat) (now : Nat) (st : GraphicsStorage) :
    Option StoredImage × GraphicsStorage :=
  match mGet st.images id with
  | none => (none, st)
  | some image =>
    let image' := { image with lastAccessed := now }
    let order :=
      if id ∈ st.accessOrder then st.accessOrder.erase id ++ [id] else st.accessOrder
    (some image', { st with images := mSet st.images id image', accessOrder := order })

/-- `hasImage`. -/
def hasImage (id : Nat) (st : GraphicsStorage) : Bool :=
  (mGet st.images id).isSome

/-- `setPlacement`: replace an existing placement with the same key; if the
placement count is at its cap, remove the insertion-oldest key (the JS
`if (oldest)` check is false for the empty-string key); insert and index by
row. -/
def setPlacement (p : ImagePlacement) (st : GraphicsStorage) : GraphicsStorage :=
  let key := p.id
  let st1 := if (mGet st.placements key).isSome then (removePlacement key st).2 else st
  let st2 :=
    if st1.maxPlacements ≤ st1.placements.length then
      match st1.placements with
      | [] => st1
      | (oldest, _) :: _ => if oldest ≠ [] then (removePlacement oldest st1).2 else st1
    else st1
  let st3 := { st2 with placements := mSet st2.placements key p }
  let rowSet := (mGet st3.placementsByRow p.bufferRow).getD []
  { st3 with placementsByRow := mSet st3.placementsByRow p.bufferRow (sAdd rowSet key) }

/-- `getPlacement`. -/
def getPlacement (key : List Char) (st : GraphicsStorage) : Option ImagePlacement :=
  mGet st.placements key

/-- `getPlacementsInRange`: scan all placements, keeping those whose occupied
row span `[bufferRow, bufferRow + displayHeight - 1]` overlaps
`[startRow, endRow]`, deduplicated by key via the `seen` set. -/
def getPlacementsInRange (startRow endRow : Int) (st : GraphicsStorage) :
    List ImagePlacement :=
  (st.placements.foldl
    (fun acc kp =>
      if startRow ≤ kp.2.bufferRow + kp.2.displayHeight - 1 ∧ kp.2.bufferRow ≤ endRow then
        if kp.1 ∈ acc.2 then acc
        else (acc.1 ++ [kp.2], acc.2 ++ [kp.1])
      else acc)
    (([], []) : List ImagePlacement × List (List Char))).1

/-- `addChunk`: get or create the buffer for the image id, append the chunk,
and overwrite the declared dimensions/compression when provided (the format
of an existing buffer is kept). -/
def addChunk (imageId : Nat) (chunk : List Char) (format : Nat)
    (width height : Option Nat) (compression : Option Char)
    (st : GraphicsStorage) : ChunkBuffer × GraphicsStorage :=
  let buffer := (mGet st.chunkBuffers imageId).getD
    ⟨imageId, format, width, height, compression, []⟩
  let buffer' : ChunkBuffer :=
    ⟨buffer.imageId, buffer.format,
      (match width with | some w => some w | none => buffer.width),
      (match height with | some h => some h | none => buffer.height),
      (match compression with | some c => some c | none => buffer.compression),
      buffer.chunks ++ [chunk]⟩
  (buffer', { st with chunkBuffers := mSet st.chunkBuffers imageId buffer' })

/-- `getAndClearChunks`. -/
def getAndClearChunks (imageId : Nat) (st : GraphicsStorage) :
    Option ChunkBuffer × GraphicsStorage :=
  match mGet st.chunkBuffers imageId with
  | none => (none, st)
  | some buffer =>
    (some buffer, { st with chunkBuffers := mDel st.chunkBuffers imageId })

/-- `hasChunkBuffer`. -/
def hasChunkBuffer (imageId : Nat) (st : GraphicsStorage) : Bool :=
  (mGet st.chunkBuffers imageId).isSome

/-- `deleteAll` (the `includeOffScreen` flag is unused by the source). -/
def deleteAll (st : GraphicsStorage) : GraphicsStorage :=
  { st with
    images := []
    placements := []
    placementsByRow := []
    accessOrder := []
    memoryUsage := 0
    chunkBuffers := [] }

/-- `deleteAtCursor`: remove the placements of the row set whose column
matches. -/
def deleteAtCursor (row col : Int) (st : GraphicsStorage) : GraphicsStorage :=
  match mGet st.placementsByRow row with
  | none => st
  | some rowSet =>
    rowSet.foldl
      (fun acc key =>
        match mGet acc.placements key with
        | some p => if p.bufferCol = col then (removePlacement key acc).2 else acc
        | none => acc) st

/-- `deleteRow`. -/
def deleteRow (row : Int) (st : GraphicsStorage) : GraphicsStorage :=
  match mGet st.placementsByRow row with
  | none => st
  | some rowSet => rowSet.foldl (fun acc key => (removePlacement key acc).2) st

/-- `deleteColumn`. -/
def deleteColumn (col : Int) (st : GraphicsStorage) : GraphicsStorage :=
  st.placements.foldl
    (fun acc kp => if kp.2.bufferCol = col then (removePlacement kp.1 acc).2 else acc) st

/-- `deleteByZIndex`. -/
def deleteByZIndex (z : Int) (st : GraphicsStorage) : GraphicsStorage :=
  st.placements.foldl
    (fun acc kp => if kp.2.zIndex = z then (removePlacement kp.1 acc).2 else acc) st

example :
    (storeImage 1 100 10 10 4 false 7 (mkStorage 1048576 10 100)).2.images =
      [(1, ⟨1, 100, 10, 10, 4, false, 4, 7⟩)] := by decide

example :
    -- the repo test: store ids 1..10 at maxImages = 10, store 11, id 1 evicted
    (List.range 10).foldl
      (fun st i => (storeImage (i + 1) 100 1 1 1 false 0 st).2)
      (mkStorage 1048576 10 100)
      |> (fun st => (storeImage 11 100 1 1 1 false 0 st).2)
      |> (fun st => st.images.length = 10 ∧ hasImage 1 st = false ∧
            hasImage 11 st = true) := by decide

/-! ### Memory accounting invariant (C3) -/

/-- Sum of `byteSize` over the stored images. -/
def imagesBytes (l : List (Nat × StoredImage)) : Int :=
  (l.map (fun kv => (kv.2.byteSize : Int))).sum

/-- The tracked total equals the sum of byte sizes of the stored images. -/
def memInv (st : GraphicsStorage) : Prop :=
  st.memoryUsage = imagesBytes st.images

/-- The image map has unique keys (inherent to a JS `Map`, which the
association list models). -/
def imagesWF (st : GraphicsStorage) : Prop :=
  (st.images.map Prod.fst).Nodup

instance (st : GraphicsStorage) : Decidable (memInv st) := by
  unfold memInv
  infer_instance

instance (st : GraphicsStorage) : Decidable (imagesWF st) := by
  unfold imagesWF
  infer_instance

/-- Lookup misses exactly the keys that are absent. -/
theorem mGet_eq_none_iff {α β : Type} [DecidableEq α] :
    ∀ (l : List (α × β)) (k : α), mGet l k = none ↔ k ∉ l.map Prod.fst
  | [], k => by simp [mGet]
  | (k0, v0) :: t, k => by
    by_cases h : k0 = k
    · subst h
      simp [mGet]
    · simp only [mGet, if_neg h, List.map_cons, List.mem_cons]
      rw [mGet_eq_none_iff t k]
      constructor
      · intro h1 h2
        rcases h2 with h2 | h2
        · exact h h2.symm
        · exact h1 h2
      · intro h1 h2
        exact h1 (Or.inr h2)

/-- A hit means the key is present. -/
theorem mem_of_mGet_some {α β : Type} [DecidableEq α] (l : List (α × β)) (k : α)
    (v : β) (h : mGet l k = some v) : k ∈ l.map Prod.fst := by
  by_contra hmem
  rw [← mGet_eq_none_iff] at hmem
  rw [hmem] at h
  exact absurd h (by simp)

/-- Deleting a present key removes exactly its byte size from the sum. -/
theorem imagesBytes_mDel : ∀ (l : List (Nat × StoredImage)) (k : Nat) (v : StoredImage),
    mGet l k = some v → imagesBytes (mDel l k) = imagesBytes l - v.byteSize
  | [], k, v, h => by simp [mGet] at h
  | (k0, v0) :: t, k, v, h => by
    by_cases hk : k0 = k
    · subst hk
      simp [mGet] at h
      subst h
      simp [mDel, imagesBytes]
    · simp only [mGet, if_neg hk] at h
      simp only [mDel, if_neg hk, imagesBytes, List.map_cons, List.sum_cons]
      have := imagesBytes_mDel t k v h
      unfold imagesBytes at this
      omega

/-- Setting an absent key appends the entry. -/
theorem mSet_of_none {α β : Type} [DecidableEq α] :
    ∀ (l : List (α × β)) (k : α) (v : β), mGet l k = none →
    mSet l k v = l ++ [(k, v)]
  | [], _, _, _ => rfl
  | (k0, v0) :: t, k, v, h => by
    by_cases hk : k0 = k
    · subst hk; simp [mGet] at h
    · simp only [mGet, if_neg hk] at h
      simp only [mSet, if_neg hk, List.cons_append, List.cons.injEq, true_and]
      exact mSet_of_none t k v h

/-- Appending an entry adds its byte size to the sum. -/
theorem imagesBytes_append (l : List (Nat × StoredImage)) (k : Nat) (v : StoredImage) :
    imagesBytes (l ++ [(k, v)]) = imagesBytes l + v.byteSize := by
  simp [imagesBytes]

/-- Replacing the entry of a present key with one of the same byte size keeps
the sum. -/
theorem imagesBytes_mSet_same : ∀ (l : List (Nat × StoredImage)) (k : Nat)
    (v w : StoredImage), mGet l k = some v → w.byteSize = v.byteSize →
    imagesBytes (mSet l k w) = imagesBytes l
  | [], k, v, w, h, _ => by simp [mGet] at h
  | (k0, v0) :: t, k, v, w, h, hw => by
    by_cases hk : k0 = k
    · subst hk
      simp [mGet] at h
      subst h
      simp [mSet, imagesBytes, hw]
    · simp only [mGet, if_neg hk] at h
      simp only [mSet, if_neg hk, imagesBytes, List.map_cons, List.sum_cons]
      have := imagesBytes_mSet_same t k v w h hw
      unfold imagesBytes at this
      omega

/-- Deletion yields a sublist. -/
theorem mDel_sublist {α β : Type} [DecidableEq α] :
    ∀ (l : List (α × β)) (k : α), (mDel l k).Sublist l
  | [], _ => List.Sublist.refl []
  | (k0, v0) :: t, k => by
    by_cases hk : k0 = k
    · simp only [mDel, if_pos hk]
      exact (List.sublist_cons_self _ _)
    · simp only [mDel, if_neg hk]
      exact List.Sublist.cons₂ _ (mDel_sublist t k)

/-- Deleting under unique keys removes the key entirely. -/
theorem mGet_mDel_self {α β : Type} [DecidableEq α] :
    ∀ (l : List (α × β)) (k : α), (l.map Prod.fst).Nodup →
    mGet (mDel l k) k = none
  | [], _, _ => rfl
  | (k0, v0) :: t, k, hnd => by
    simp only [List.map_cons, List.nodup_cons] at hnd
    by_cases hk : k0 = k
    · subst hk
      simp only [mDel, if_pos rfl]
      rw [mGet_eq_none_iff]
      exact hnd.1
    · simp only [mDel, if_neg hk, mGet, if_neg hk]
      exact mGet_mDel_self t k hnd.2

/-- The key list after `mSet`: unchanged when present, appended when new. -/
theorem keys_mSet {α β : Type} [DecidableEq α] :
    ∀ (l : List (α × β)) (k : α) (v : β),
    (mSet l k v).map Prod.fst =
      (if k ∈ l.map Prod.fst then l.map Prod.fst else l.map Prod.fst ++ [k])
  | [], k, v => by simp [mSet]
  | (k0, v0) :: t, k, v => by
    by_cases hk : k0 = k
    · subst hk
      simp [mSet]
    · have hkk : ¬(k = k0) := fun h => hk h.symm
      simp only [mSet, if_neg hk, List.map_cons, keys_mSet t k v, List.mem_cons]
      by_cases hmem : k ∈ t.map Prod.fst
      · rw [if_pos hmem, if_pos (Or.inr hmem)]
      · rw [if_neg hmem,
          if_neg (fun hor => hor.elim (fun h => hkk h) (fun h => hmem h))]
        rfl

/-- Relation: `t` differs from `s` only in `placements`/`placementsByRow`. -/
def PlacementOnly (s t : GraphicsStorage) : Prop :=
  t.images = s.images ∧ t.memoryUsage = s.memoryUsage ∧
    t.accessOrder = s.accessOrder ∧ t.chunkBuffers = s.chunkBuffers ∧
    t.maxMemory = s.maxMemory ∧ t.maxImages = s.maxImages ∧
    t.maxPlacements = s.maxPlacements

theorem placementOnly_refl (s : GraphicsStorage) : PlacementOnly s s :=
  ⟨rfl, rfl, rfl, rfl, rfl, rfl, rfl⟩

theorem placementOnly_trans {s t u : GraphicsStorage}
    (h1 : PlacementOnly s t) (h2 : PlacementOnly t u) : PlacementOnly s u := by
  obtain ⟨a1, a2, a3, a4, a5, a6, a7⟩ := h1
  obtain ⟨b1, b2, b3, b4, b5, b6, b7⟩ := h2
  exact ⟨b1.trans a1, b2.trans a2, b3.trans a3, b4.trans a4, b5.trans a5,
    b6.trans a6, b7.trans a7⟩

/-- `removePlacement` touches only the placement maps. -/
theorem removePlacement_placementOnly (key : List Char) (st : GraphicsStorage) :
    PlacementOnly st (removePlacement key st).2 := by
  unfold PlacementOnly removePlacement
  cases mGet st.placements key with
  | none => simp
  | some p =>
    cases hrow : mGet st.placementsByRow p.bufferRow with
    | none => simp [hrow]
    | some rowSet =>
      by_cases h : (rowSet.erase key).isEmpty <;> simp [hrow, h]

/-- A fold whose step changes only the placement maps changes only the
placement maps. -/
theorem foldl_placementOnly {γ : Type} (f : GraphicsStorage → γ → GraphicsStorage)
    (hf : ∀ acc x, PlacementOnly acc (f acc x)) :
    ∀ (l : List γ) (st : GraphicsStorage), PlacementOnly st (l.foldl f st)
  | [], st => placementOnly_refl st
  | x :: t, st => by
    rw [List.foldl_cons]
    exact placementOnly_trans (hf st x) (foldl_placementOnly f hf t (f st x))

/-- The placement cascade of `removeImage` changes only the placement maps. -/
theorem removeImage_cascade_placementOnly (id : Nat) (st : GraphicsStorage) :
    PlacementOnly st (st.placements.foldl
      (fun acc kp => if kp.2.imageId = id then (removePlacement kp.1 acc).2 else acc)
      st) := by
  apply foldl_placementOnly
  intro acc kp
  by_cases h : kp.2.imageId = id
  · rw [if_pos h]
    exact removePlacement_placementOnly kp.1 acc
  · rw [if_neg h]
    exact placementOnly_refl acc

/-- `removeImage` preserves the memory invariant and key uniqueness; it
never adds keys, and under unique keys it removes `id` entirely. -/
theorem removeImage_inv (id : Nat) (st : GraphicsStorage)
    (hwf : imagesWF st) (hinv : memInv st) :
    memInv (removeImage id st).2 ∧ imagesWF (removeImage id st).2 ∧
      (removeImage id st).2.maxMemory = st.maxMemory ∧
      (removeImage id st).2.maxImages = st.maxImages ∧
      mGet (removeImage id st).2.images id = none := by
  unfold removeImage
  cases hlook : mGet st.images id with
  | none =>
    refine ⟨hinv, hwf, rfl, rfl, hlook⟩
  | some image =>
    obtain ⟨h1, h2, _, _, h5, h6, _⟩ := removeImage_cascade_placementOnly id st
    constructor
    · show _ - _ = imagesBytes (mDel _ id)
      rw [h1, h2, imagesBytes_mDel st.images id image hlook, hinv]
    refine ⟨?_, by simp [h5], by simp [h6], ?_⟩
    · show (List.map Prod.fst (mDel _ id)).Nodup
      rw [h1]
      exact List.Nodup.sublist ((mDel_sublist st.images id).map Prod.fst) hwf
    · show mGet (mDel _ id) id = none
      rw [h1]
      exact mGet_mDel_self st.images id hwf

/-- The count eviction loop preserves the invariants. -/
theorem evictCountLoop_inv : ∀ (fuel : Nat) (st : GraphicsStorage),
    imagesWF st → memInv st →
    memInv (evictCountLoop fuel st) ∧ imagesWF (evictCountLoop fuel st) ∧
      (evictCountLoop fuel st).maxMemory = st.maxMemory ∧
      (evictCountLoop fuel st).maxImages = st.maxImages
  | 0, st, hwf, hinv => ⟨hinv, hwf, rfl, rfl⟩
  | fuel + 1, st, hwf, hinv => by
    unfold evictCountLoop
    cases st.accessOrder with
    | nil => exact ⟨hinv, hwf, rfl, rfl⟩
    | cons lru rest =>
      by_cases h : st.maxImages ≤ st.images.length
      · simp only [if_pos h]
        obtain ⟨i1, i2, i3, i4, _⟩ := removeImage_inv lru st hwf hinv
        obtain ⟨j1, j2, j3, j4⟩ := evictCountLoop_inv fuel (removeImage lru st).2 i2 i1
        exact ⟨j1, j2, j3.trans i3, j4.trans i4⟩
      · simp only [if_neg h]
        refine ⟨hinv, hwf, ?_, ?_⟩ <;> trivial

/-- The byte-budget eviction loop preserves the invariants. -/
theorem evictMemLoop_inv (additionalBytes : Nat) : ∀ (fuel : Nat) (st : GraphicsStorage),
    imagesWF st → memInv st →
    memInv (evictMemLoop additionalBytes fuel st) ∧
      imagesWF (evictMemLoop additionalBytes fuel st) ∧
      (evictMemLoop additionalBytes fuel st).maxMemory = st.maxMemory ∧
      (evictMemLoop additionalBytes fuel st).maxImages = st.maxImages
  | 0, st, hwf, hinv => ⟨hinv, hwf, rfl, rfl⟩
  | fuel + 1, st, hwf, hinv => by
    unfold evictMemLoop
    cases st.accessOrder with
    | nil => exact ⟨hinv, hwf, rfl, rfl⟩
    | cons lru rest =>
      by_cases h : (st.maxMemory : Int) < st.memoryUsage + additionalBytes
      · simp only [if_pos h]
        obtain ⟨i1, i2, i3, i4, _⟩ := removeImage_inv lru st hwf hinv
        obtain ⟨j1, j2, j3, j4⟩ :=
          evictMemLoop_inv additionalBytes fuel (removeImage lru st).2 i2 i1
        exact ⟨j1, j2, j3.trans i3, j4.trans i4⟩
      · simp only [if_neg h]
        refine ⟨hinv, hwf, ?_, ?_⟩ <;> trivial

/-- `evictIfNeeded` preserves the invariants. -/
theorem evictIfNeeded_inv (additionalBytes : Nat) (st : GraphicsStorage)
    (hwf : imagesWF st) (hinv : memInv st) :
    memInv (evictIfNeeded additionalBytes st) ∧
      imagesWF (evictIfNeeded additionalBytes st) := by
  unfold evictIfNeeded
  obtain ⟨i1, i2, _, _⟩ := evictCountLoop_inv (st.accessOrder.length + 1) st hwf hinv
  obtain ⟨j1, j2, _, _⟩ := evictMemLoop_inv additionalBytes (st.accessOrder.length + 1)
    (evictCountLoop (st.accessOrder.length + 1) st) i2 i1
  exact ⟨j1, j2⟩

/-- `storeImage` preserves the memory invariant and key uniqueness. -/
theorem storeImage_inv (id format width height dataLen : Nat) (hasBitmap : Bool)
    (now : Nat) (st : GraphicsStorage) (hwf : imagesWF st) (hinv : memInv st) :
    memInv (storeImage id format width height dataLen hasBitmap now st).2 ∧
      imagesWF (storeImage id format width height dataLen hasBitmap now st).2 := by
  unfold storeImage
  obtain ⟨e1, e2⟩ := evictIfNeeded_inv dataLen st hwf hinv
  have hst2 : memInv (if (mGet (evictIfNeeded dataLen st).images id).isSome then
        (removeImage id (evictIfNeeded dataLen st)).2
      else evictIfNeeded dataLen st) ∧
      imagesWF (if (mGet (evictIfNeeded dataLen st).images id).isSome then
        (removeImage id (evictIfNeeded dataLen st)).2
      else evictIfNeeded dataLen st) ∧
      mGet (if (mGet (evictIfNeeded dataLen st).images id).isSome then
        (removeImage id (evictIfNeeded dataLen st)).2
      else evictIfNeeded dataLen st).images id = none := by
    by_cases h : (mGet (evictIfNeeded dataLen st).images id).isSome
    · simp only [if_pos h]
      obtain ⟨i1, i2, _, _, i5⟩ := removeImage_inv id (evictIfNeeded dataLen st) e2 e1
      exact ⟨i1, i2, i5⟩
    · simp only [if_neg h]
      exact ⟨e1, e2, Option.not_isSome_iff_eq_none.mp h⟩
  obtain ⟨s1, s2, s3⟩ := hst2
  constructor
  · show _ + _ = imagesBytes (mSet _ id _)
    rw [mSet_of_none _ id _ s3, imagesBytes_append, s1]
  · show (List.map Prod.fst (mSet _ id _)).Nodup
    rw [keys_mSet, if_neg (mGet_eq_none_iff _ id |>.mp s3)]
    simp only [List.nodup_append, List.nodup_cons]
    refine ⟨s2, by simp, ?_⟩
    intro a ha hb
    simp only [List.mem_singleton] at hb
    subst hb
    exact (mGet_eq_none_iff _ a |>.mp s3) ha

/-- `getImage` preserves the memory invariant and key uniqueness. -/
theorem getImage_inv (id now : Nat) (st : GraphicsStorage)
    (hwf : imagesWF st) (hinv : memInv st) :
    memInv (getImage id now st).2 ∧ imagesWF (getImage id now st).2 := by
  unfold getImage
  cases hlook : mGet st.images id with
  | none => exact ⟨hinv, hwf⟩
  | some image =>
    constructor
    · show _ = imagesBytes (mSet _ id _)
      rw [imagesBytes_mSet_same st.images id image
        { image with lastAccessed := now } hlook rfl]
      exact hinv
    · show (List.map Prod.fst (mSet _ id _)).Nodup
      rw [keys_mSet, if_pos (mem_of_mGet_some st.images id image hlook)]
      exact hwf

/-- `setPlacement` touches only the placement maps. -/
theorem setPlacement_placementOnly (p : ImagePlacement) (st : GraphicsStorage) :
    PlacementOnly st (setPlacement p st) := by
  unfold setPlacement
  simp only []
  split
  case isTrue h1 =>
    split
    case isTrue h2 =>
      split
      case h_1 =>
        exact placementOnly_trans (removePlacement_placementOnly p.id st)
          ⟨rfl, rfl, rfl, rfl, rfl, rfl, rfl⟩
      case h_2 oldest v t heq =>
        split
        case isTrue h3 =>
          exact placementOnly_trans (removePlacement_placementOnly p.id st)
            (placementOnly_trans (removePlacement_placementOnly oldest _)
              ⟨rfl, rfl, rfl, rfl, rfl, rfl, rfl⟩)
        case isFalse h3 =>
          exact placementOnly_trans (removePlacement_placementOnly p.id st)
            ⟨rfl, rfl, rfl, rfl, rfl, rfl, rfl⟩
    case isFalse h2 =>
      exact placementOnly_trans (removePlacement_placementOnly p.id st)
        ⟨rfl, rfl, rfl, rfl, rfl, rfl, rfl⟩
  case isFalse h1 =>
    split
    case isTrue h2 =>
      split
      case h_1 =>
        exact ⟨rfl, rfl, rfl, rfl, rfl, rfl, rfl⟩
      case h_2 oldest v t heq =>
        split
        case isTrue h3 =>
          exact placementOnly_trans (removePlacement_placementOnly oldest _)
            ⟨rfl, rfl, rfl, rfl, rfl, rfl, rfl⟩
        case isFalse h3 =>
          exact ⟨rfl, rfl, rfl, rfl, rfl, rfl, rfl⟩
    case isFalse h2 =>
      exact ⟨rfl, rfl, rfl, rfl, rfl, rfl, rfl⟩

/-- `deleteAtCursor` touches only the placement maps. -/
theorem deleteAtCursor_placementOnly (row col : Int) (st : GraphicsStorage) :
    PlacementOnly st (deleteAtCursor row col st) := by
  unfold deleteAtCursor
  cases mGet st.placementsByRow row with
  | none => exact placementOnly_refl st
  | some rowSet =>
    apply foldl_placementOnly
    intro acc key
    cases mGet acc.placements key with
    | none => exact placementOnly_refl acc
    | some q =>
      by_cases h : q.bufferCol = col
      · simp only [if_pos h]
        exact removePlacement_placementOnly key acc
      · simp only [if_neg h]
        exact placementOnly_refl acc

/-- `deleteRow` touches only the placement maps. -/
theorem deleteRow_placementOnly (row : Int) (st : GraphicsStorage) :
    PlacementOnly st (deleteRow row st) := by
  unfold deleteRow
  cases mGet st.placementsByRow row with
  | none => exact placementOnly_refl st
  | some rowSet =>
    apply foldl_placementOnly
    intro acc key
    exact removePlacement_placementOnly key acc

/-- `deleteColumn` touches only the placement maps. -/
theorem deleteColumn_placementOnly (col : Int) (st : GraphicsStorage) :
    PlacementOnly st (deleteColumn col st) := by
  unfold deleteColumn
  apply foldl_placementOnly
  intro acc kp
  by_cases h : kp.2.bufferCol = col
  · simp only [if_pos h]
    exact removePlacement_placementOnly kp.1 acc
  · simp only [if_neg h]
    exact placementOnly_refl acc

/-- `deleteByZIndex` touches only the placement maps. -/
theorem deleteByZIndex_placementOnly (z : Int) (st : GraphicsStorage) :
    PlacementOnly st (deleteByZIndex z st) := by
  unfold deleteByZIndex
  apply foldl_placementOnly
  intro acc kp
  by_cases h : kp.2.zIndex = z
  · simp only [if_pos h]
    exact removePlacement_placementOnly kp.1 acc
  · simp only [if_neg h]
    exact placementOnly_refl acc

/-- A state reached by a placement-only change keeps the memory invariant. -/
theorem memInv_of_placementOnly {s t : GraphicsStorage}
    (h : PlacementOnly s t) (hinv : memInv s) : memInv t := by
  obtain ⟨h1, h2, _⟩ := h
  unfold memInv
  rw [h1, h2]
  exact hinv

/-- C3: after every public `GraphicsStorage` operation, the tracked
`memoryUsage` total equals exactly the sum of `byteSize` over all currently
stored images.  The invariant holds in a freshly constructed store and is
preserved — from any state satisfying it whose image map has the unique keys
inherent to a JS `Map` — by `storeImage`, `getImage`, `removeImage`,
`setPlacement`, `removePlacement`, `deleteAll`, the other delete variants,
and the chunk-buffer operations (`getPlacementsInRange`, `getPlacement`,
`hasImage`, `hasChunkBuffer` do not change state). -/
theorem c3_memory_accounting (st : GraphicsStorage)
    (hwf : imagesWF st) (hinv : memInv st)
    (mm mi mp id format width height dataLen : Nat) (hasBitmap : Bool) (now : Nat)
    (p : ImagePlacement) (key : List Char) (row col z : Int)
    (imageId : Nat) (chunk : List Char) (cw ch : Option Nat) (comp : Option Char) :
    memInv (mkStorage mm mi mp) ∧
    memInv (storeImage id format width height dataLen hasBitmap now st).2 ∧
    memInv (getImage id now st).2 ∧
    memInv (removeImage id st).2 ∧
    memInv (setPlacement p st) ∧
    memInv (removePlacement key st).2 ∧
    memInv (deleteAll st) ∧
    memInv (deleteAtCursor row col st) ∧
    memInv (deleteRow row st) ∧
    memInv (deleteColumn col st) ∧
    memInv (deleteByZIndex z st) ∧
    memInv (addChunk imageId chunk format cw ch comp st).2 ∧
    memInv (getAndClearChunks imageId st).2 := by
  refine ⟨rfl, (storeImage_inv id format width height dataLen hasBitmap now st hwf hinv).1,
    (getImage_inv id now st hwf hinv).1, (removeImage_inv id st hwf hinv).1,
    memInv_of_placementOnly (setPlacement_placementOnly p st) hinv,
    memInv_of_placementOnly (removePlacement_placementOnly key st) hinv,
    rfl,
    memInv_of_placementOnly (deleteAtCursor_placementOnly row col st) hinv,
    memInv_of_placementOnly (deleteRow_placementOnly row st) hinv,
    memInv_of_placementOnly (deleteColumn_placementOnly col st) hinv,
    memInv_of_placementOnly (deleteByZIndex_placementOnly z st) hinv,
    ?_, ?_⟩
  · show (_ : Int) = imagesBytes _
    exact hinv
  · unfold getAndClearChunks
    cases mGet st.chunkBuffers imageId with
    | none => exact hinv
    | some buffer => exact hinv

/-- Witness for C3 from a two-image store built by the model itself. -/
theorem c3_memory_accounting_witness :
    imagesWF ((storeImage 2 24 3 3 27 false 1
        (storeImage 1 100 2 2 16 true 0 (mkStorage 1000 5 5)).2).2) ∧
    memInv ((storeImage 2 24 3 3 27 false 1
        (storeImage 1 100 2 2 16 true 0 (mkStorage 1000 5 5)).2).2) ∧
    memInv (getImage 1 9 ((storeImage 2 24 3 3 27 false 1
        (storeImage 1 100 2 2 16 true 0 (mkStorage 1000 5 5)).2).2)).2 ∧
    memInv (removeImage 1 ((storeImage 2 24 3 3 27 false 1
        (storeImage 1 100 2 2 16 true 0 (mkStorage 1000 5 5)).2).2)).2 ∧
    memInv (deleteAll ((storeImage 2 24 3 3 27 false 1
        (storeImage 1 100 2 2 16 true 0 (mkStorage 1000 5 5)).2).2)) :=
  ⟨by decide, by decide,
    ((c3_memory_accounting
      ((storeImage 2 24 3 3 27 false 1
        (storeImage 1 100 2 2 16 true 0 (mkStorage 1000 5 5)).2).2)
      (by decide) (by decide) 7 7 7 1 100 2 2 16 true 9
      ⟨"1:1".toList, 1, 1, 0, 0, 0, 0, 1, 1, 0, 0, 2, 2, 0,
        ⟨1, 100, 2, 2, 16, true, 32, 0⟩⟩
      "1:1".toList 0 0 0 1 [] none none none).2.2).1,
    ((c3_memory_accounting
      ((storeImage 2 24 3 3 27 false 1
        (storeImage 1 100 2 2 16 true 0 (mkStorage 1000 5 5)).2).2)
      (by decide) (by decide) 7 7 7 1 100 2 2 16 true 9
      ⟨"1:1".toList, 1, 1, 0, 0, 0, 0, 1, 1, 0, 0, 2, 2, 0,
        ⟨1, 100, 2, 2, 16, true, 32, 0⟩⟩
      "1:1".toList 0 0 0 1 [] none none none).2.2.2).1,
    ((c3_memory_accounting
      ((storeImage 2 24 3 3 27 false 1
        (storeImage 1 100 2 2 16 true 0 (mkStorage 1000 5 5)).2).2)
      (by decide) (by decide) 7 7 7 1 100 2 2 16 true 9
      ⟨"1:1".toList, 1, 1, 0, 0, 0, 0, 1, 1, 0, 0, 2, 2, 0,
        ⟨1, 100, 2, 2, 16, true, 32, 0⟩⟩
      "1:1".toList 0 0 0 1 [] none none none).2.2.2.2.2.2).1⟩

/-! ### Row-range placement queries (C7) -/

/-- The range-query fold appends exactly the overlapping placements, in
order, when keys are unique and none was seen yet. -/
theorem rangeFold_spec (startRow endRow : Int) :
    ∀ (l : List (List Char × ImagePlacement)) (res : List ImagePlacement)
      (seen : List (List Char)),
      (l.map Prod.fst).Nodup → (∀ k ∈ l.map Prod.fst, k ∉ seen) →
      (l.foldl (fun acc kp =>
        if startRow ≤ kp.2.bufferRow + kp.2.displayHeight - 1 ∧ kp.2.bufferRow ≤ endRow then
          if kp.1 ∈ acc.2 then acc
          else (acc.1 ++ [kp.2], acc.2 ++ [kp.1])
        else acc) (res, seen)).1 =
      res ++ (l.filter (fun kp =>
        decide (startRow ≤ kp.2.bufferRow + kp.2.displayHeight - 1) &&
          decide (kp.2.bufferRow ≤ endRow))).map Prod.snd
  | [], res, seen, _, _ => by simp
  | kp :: t, res, seen, hnd, hdisj => by
    simp only [List.map_cons, List.nodup_cons] at hnd
    rw [List.foldl_cons]
    by_cases hov : startRow ≤ kp.2.bufferRow + kp.2.displayHeight - 1 ∧
        kp.2.bufferRow ≤ endRow
    · rw [if_pos hov, if_neg (hdisj kp.1 (by simp))]
      rw [rangeFold_spec startRow endRow t (res ++ [kp.2]) (seen ++ [kp.1]) hnd.2 ?_]
      · rw [List.filter_cons, if_pos (by simp [hov.1, hov.2])]
        simp
      · intro k hk
        simp only [List.mem_append, List.mem_singleton]
        rintro (h | h)
        · exact hdisj k (by simp [hk]) h
        · exact hnd.1 (h ▸ hk)
    · rw [if_neg hov]
      rw [rangeFold_spec startRow endRow t res seen hnd.2
        (fun k hk => hdisj k (by simp [hk]))]
      rw [List.filter_cons, if_neg (by simpa [Decidable.not_and_iff_or_not] using hov)]

/-- C7: for `startRow ≤ endRow`, `getPlacementsInRange` returns exactly the
placements whose occupied row span `[bufferRow, bufferRow + displayHeight -
1]` intersects `[startRow, endRow]` — in particular a multi-row placement
whose span starts before `startRow` but extends into the range. -/
theorem c7_placements_in_range (st : GraphicsStorage)
    (hwf : (st.placements.map Prod.fst).Nodup) (startRow endRow : Int)
    (hr : startRow ≤ endRow) (p : ImagePlacement) :
    p ∈ getPlacementsInRange startRow endRow st ↔
      ∃ k, (k, p) ∈ st.placements ∧
        startRow ≤ p.bufferRow + p.displayHeight - 1 ∧ p.bufferRow ≤ endRow := by
  unfold getPlacementsInRange
  rw [rangeFold_spec startRow endRow st.placements [] [] hwf (by simp)]
  simp only [List.nil_append, List.mem_map, List.mem_filter]
  constructor
  · rintro ⟨kq, ⟨hmem, hcond⟩, hp⟩
    simp only [Bool.and_eq_true, decide_eq_true_eq] at hcond
    subst hp
    exact ⟨kq.1, by simpa using hmem, hcond.1, hcond.2⟩
  · rintro ⟨k, hmem, h1, h2⟩
    exact ⟨(k, p), ⟨hmem, by simp [h1, h2]⟩, rfl⟩

/-- Witness for C7: a three-row-tall placement starting at row 0 is returned
by a query for rows 2..5. -/
theorem c7_placements_in_range_witness :
    ((([("a".toList,
        (⟨"a".toList, 1, 1, 0, 0, 0, 0, 2, 3, 0, 0, 2, 2, 0,
          ⟨1, 100, 2, 2, 16, false, 16, 0⟩⟩ : ImagePlacement))].map Prod.fst).Nodup) ∧
      (2 : Int) ≤ 5) ∧
    ((⟨"a".toList, 1, 1, 0, 0, 0, 0, 2, 3, 0, 0, 2, 2, 0,
        ⟨1, 100, 2, 2, 16, false, 16, 0⟩⟩ : ImagePlacement) ∈
      getPlacementsInRange 2 5
        ⟨[], [], [("a".toList,
          ⟨"a".toList, 1, 1, 0, 0, 0, 0, 2, 3, 0, 0, 2, 2, 0,
            ⟨1, 100, 2, 2, 16, false, 16, 0⟩⟩)], [], [], 0, 100, 10, 10⟩ ↔
      ∃ k, (k, (⟨"a".toList, 1, 1, 0, 0, 0, 0, 2, 3, 0, 0, 2, 2, 0,
          ⟨1, 100, 2, 2, 16, false, 16, 0⟩⟩ : ImagePlacement)) ∈
        [("a".toList,
          (⟨"a".toList, 1, 1, 0, 0, 0, 0, 2, 3, 0, 0, 2, 2, 0,
            ⟨1, 100, 2, 2, 16, false, 16, 0⟩⟩ : ImagePlacement))] ∧
        (2 : Int) ≤ (0 : Int) + 3 - 1 ∧ (0 : Int) ≤ 5) :=
  ⟨⟨by decide, by decide⟩,
    c7_placements_in_range
      ⟨[], [], [("a".toList,
        ⟨"a".toList, 1, 1, 0, 0, 0, 0, 2, 3, 0, 0, 2, 2, 0,
          ⟨1, 100, 2, 2, 16, false, 16, 0⟩⟩)], [], [], 0, 100, 10, 10⟩
      (by decide) 2 5 (by decide) _⟩

/-! ### LRU eviction (C2) -/

/-- Parameters of one `storeImage` call. -/
structure ImgSpec where
  id : Nat
  format : Nat
  width : Nat
  height : Nat
  dataLen : Nat
  hasBitmap : Bool
deriving DecidableEq, Repr

/-- The stored image a spec produces. -/
def specImage (s : ImgSpec) (now : Nat) : StoredImage :=
  ⟨s.id, s.format, s.width, s.height, s.dataLen, s.hasBitmap,
    s.dataLen + (if s.hasBitmap then s.width * s.height * 4 else 0), now⟩

/-- The byte size a spec is charged. -/
def specBytes (s : ImgSpec) : Nat :=
  s.dataLen + (if s.hasBitmap then s.width * s.height * 4 else 0)

/-- Insert a sequence of images via `storeImage`. -/
def insertImages (specs : List ImgSpec) (now : Nat) (st : GraphicsStorage) :
    GraphicsStorage :=
  specs.foldl (fun acc s =>
    (storeImage s.id s.format s.width s.height s.dataLen s.hasBitmap now acc).2) st

/-- Below the image-count limit the count eviction pass does nothing. -/
theorem evictCountLoop_noop : ∀ (fuel : Nat) (st : GraphicsStorage),
    st.images.length < st.maxImages → evictCountLoop fuel st = st
  | 0, _, _ => rfl
  | fuel + 1, st, h => by
    unfold evictCountLoop
    cases st.accessOrder with
    | nil => rfl
    | cons lru rest => simp only [if_neg (show ¬st.maxImages ≤ st.images.length by omega)]

/-- Within the byte budget the byte eviction pass does nothing. -/
theorem evictMemLoop_noop (additionalBytes : Nat) : ∀ (fuel : Nat) (st : GraphicsStorage),
    st.memoryUsage + additionalBytes ≤ (st.maxMemory : Int) →
    evictMemLoop additionalBytes fuel st = st
  | 0, _, _ => rfl
  | fuel + 1, st, h => by
    unfold evictMemLoop
    cases st.accessOrder with
    | nil => rfl
    | cons lru rest =>
      simp only [if_neg (show ¬((st.maxMemory : Int) <
        st.memoryUsage + additionalBytes) by omega)]

/-- Storing a fresh id below both limits appends the image, appends to the
access order, and adds its byte size; nothing else changes. -/
theorem storeImage_fresh (s : ImgSpec) (now : Nat) (st : GraphicsStorage)
    (hcount : st.images.length < st.maxImages)
    (hmem : st.memoryUsage + s.dataLen ≤ (st.maxMemory : Int))
    (hfresh : mGet st.images s.id = none) :
    (storeImage s.id s.format s.width s.height s.dataLen s.hasBitmap now st).2 =
      { st with
        images := st.images ++ [(s.id, specImage s now)]
        accessOrder := st.accessOrder ++ [s.id]
        memoryUsage := st.memoryUsage + specBytes s } := by
  unfold storeImage evictIfNeeded
  rw [evictCountLoop_noop _ st hcount, evictMemLoop_noop s.dataLen _ st hmem]
  simp only [hfresh, Option.isSome_none, Bool.false_eq_true, if_false,
    mSet_of_none st.images s.id _ hfresh]
  rfl

/-- Charged byte sizes are non-negative. -/
theorem specBytes_sum_nonneg (l : List ImgSpec) :
    0 ≤ (l.map (fun s => (specBytes s : Int))).sum := by
  apply List.sum_nonneg
  intro x hx
  obtain ⟨s, _, rfl⟩ := List.mem_map.mp hx
  exact Int.ofNat_nonneg _

/-- Inserting distinct fresh images within both limits appends them in
order: the image map lists them in insertion order, the access order lists
their ids, and the tracked total grows by the sum of their byte sizes. -/
theorem insertImages_spec : ∀ (specs : List ImgSpec) (now : Nat) (st : GraphicsStorage),
    ((st.images.map Prod.fst) ++ specs.map ImgSpec.id).Nodup →
    st.images.length + specs.length ≤ st.maxImages →
    memInv st →
    st.memoryUsage + (specs.map (fun s => (specBytes s : Int))).sum ≤ (st.maxMemory : Int) →
    st.accessOrder = st.images.map Prod.fst →
    insertImages specs now st =
      { st with
        images := st.images ++ specs.map (fun s => (s.id, specImage s now))
        accessOrder := st.accessOrder ++ specs.map ImgSpec.id
        memoryUsage := st.memoryUsage + (specs.map (fun s => (specBytes s : Int))).sum }
  | [], now, st, _, _, _, _, _ => by
    cases st
    simp [insertImages]
  | s0 :: rest, now, st, hnd, hcount, hinv, hbudget, hsync => by
    have hndsplit := List.nodup_append.mp hnd
    have hfresh : mGet st.images s0.id = none := by
      rw [mGet_eq_none_iff]
      intro hmem
      exact hndsplit.2.2 hmem (by simp)
    have hrest_nonneg := specBytes_sum_nonneg rest
    have hb0 : (s0.dataLen : Int) ≤ specBytes s0 := by
      unfold specBytes
      by_cases h : s0.hasBitmap
      · simp [h]
        positivity
      · simp [h]
    have hsum : ((s0 :: rest).map (fun s => (specBytes s : Int))).sum =
        (specBytes s0 : Int) + (rest.map (fun s => (specBytes s : Int))).sum := by
      simp
    have hmem0 : st.memoryUsage + s0.dataLen ≤ (st.maxMemory : Int) := by
      rw [hsum] at hbudget
      omega
    have hstep := storeImage_fresh s0 now st (by simp at hcount; omega) hmem0 hfresh
    have hins : insertImages (s0 :: rest) now st =
        insertImages rest now
          (storeImage s0.id s0.format s0.width s0.height s0.dataLen s0.hasBitmap now st).2 :=
      rfl
    rw [hins, hstep]
    rw [insertImages_spec rest now _ ?hnd2 ?hcount2 ?hinv2 ?hbudget2 ?hsync2]
    case hnd2 =>
      simp only [List.map_append, List.map_cons, List.map_nil]
      rw [List.append_assoc]
      simpa using hnd
    case hcount2 =>
      simp only [List.length_append, List.length_cons, List.length_map]
      simp only [List.length_cons] at hcount
      simp
      omega
    case hinv2 =>
      show _ + _ = imagesBytes (_ ++ [(s0.id, specImage s0 now)])
      rw [imagesBytes_append, hinv]
      rfl
    case hbudget2 =>
      show st.memoryUsage + (specBytes s0 : Int) +
        (rest.map (fun s => (specBytes s : Int))).sum ≤ (st.maxMemory : Int)
      rw [hsum] at hbudget
      omega
    case hsync2 =>
      show st.accessOrder ++ [s0.id] = (st.images ++ [(s0.id, specImage s0 now)]).map Prod.fst
      rw [List.map_append, hsync]
      rfl
    simp only [List.map_cons, GraphicsStorage.mk.injEq]
    refine ⟨?_, ?_, True.intro, True.intro, True.intro, ?_, True.intro, True.intro,
      True.intro⟩
    · rw [List.append_assoc]
      rfl
    · rw [List.append_assoc]
      rfl
    · rw [List.sum_cons]
      omega

/-- Lookup succeeds exactly on present keys. -/
theorem mGet_isSome_iff {α β : Type} [DecidableEq α] (l : List (α × β)) (k : α) :
    (mGet l k).isSome = true ↔ k ∈ l.map Prod.fst := by
  constructor
  · intro h
    by_contra hmem
    rw [← mGet_eq_none_iff] at hmem
    rw [hmem] at h
    simp at h
  · intro h
    cases hl : mGet l k with
    | none => exact absurd (mGet_eq_none_iff l k |>.mp hl) (by simp [h])
    | some v => rfl

/-- C2 (counterexample to the claim as stated): with `maxImages = K = 1`,
insert one image (id 5), touch it via `getImage`, then insert a fresh image
(id 6).  Exactly K images remain, but the touched image is evicted — it is
itself the least-recently-accessed one, so the claim that "the touched image
is still present" fails at K = 1. -/
theorem c2_lru_counterexample :
    (storeImage 6 100 1 1 1 false 2
        (getImage 5 1
          (storeImage 5 100 1 1 1 false 0 (mkStorage 1000 1 100)).2).2).2.images.length
        = 1 ∧
    hasImage 5 (storeImage 6 100 1 1 1 false 2
        (getImage 5 1
          (storeImage 5 100 1 1 1 false 0 (mkStorage 1000 1 100)).2).2).2 = false ∧
    hasImage 6 (storeImage 6 100 1 1 1 false 2
        (getImage 5 1
          (storeImage 5 100 1 1 1 false 0 (mkStorage 1000 1 100)).2).2).2 = true := by
  refine ⟨?_, ?_, ?_⟩ <;> decide

/-- A storage state whose placement, row-index and chunk maps are empty:
the shape of every state in an insert/touch/insert eviction scenario. -/
def flatStore (images : List (Nat × StoredImage)) (order : List Nat) (mem : Int)
    (mm mi mp : Nat) : GraphicsStorage :=
  ⟨images, order, [], [], [], mem, mm, mi, mp⟩

/-- Removing the id at the head of the access order from a two-or-more image
flat store drops its entry, its access-order slot and its byte size. -/
theorem removeImage_flat (bId : Nat) (v : StoredImage) (aId : Nat) (w : StoredImage)
    (restE : List (Nat × StoredImage)) (ord : List Nat) (mem : Int)
    (mm mi mp : Nat) (hab : aId ≠ bId) :
    (removeImage bId
        (flatStore ((aId, w) :: (bId, v) :: restE) (bId :: ord) mem mm mi mp)).2 =
      flatStore ((aId, w) :: restE) ord (mem - (v.byteSize : Int)) mm mi mp := by
  simp [removeImage, flatStore, mGet, mDel, hab]

/-- One iteration of the count-eviction loop on an at-capacity store. -/
theorem evictCountLoop_step (fuel : Nat) (st : GraphicsStorage) (lru : Nat)
    (ord : List Nat) (h : st.accessOrder = lru :: ord)
    (hfull : st.maxImages ≤ st.images.length) :
    evictCountLoop (fuel + 1) st = evictCountLoop fuel (removeImage lru st).2 := by
  unfold evictCountLoop
  rw [h]
  simp only [if_pos hfull]
  cases fuel <;> rfl

/-- C2 (amended): for a `GraphicsStorage` with `maxImages = K` (K = 2 + |rest|
≥ 2), after inserting K images with distinct ids (`a`, then `b`, then `rest`),
touching the first-inserted image `a` via `getImage`, and then inserting a
(K+1)-th image with a fresh distinct id, the least-recently-accessed image is
`b` (the head of the access order), exactly K images remain, the touched image
and every image of `rest` and the fresh image are still present, and `b` — the
least-recently-accessed one — is the image evicted.  (As originally stated the
claim also covers K = 1, where it is false: see the counterexample.) -/
theorem c2_lru_eviction (maxMem maxPl now1 now2 now3 : Nat)
    (a b fr : ImgSpec) (rest : List ImgSpec)
    (hnd : ((a :: b :: rest ++ [fr]).map ImgSpec.id).Nodup)
    (hbudget : ((a :: b :: rest ++ [fr]).map
        (fun s => (specBytes s : Int))).sum ≤ (maxMem : Int)) :
    (getImage a.id now2
        (insertImages (a :: b :: rest) now1
          (mkStorage maxMem (2 + rest.length) maxPl))).2.accessOrder =
      b.id :: rest.map ImgSpec.id ++ [a.id] ∧
    (storeImage fr.id fr.format fr.width fr.height fr.dataLen fr.hasBitmap now3
        (getImage a.id now2
          (insertImages (a :: b :: rest) now1
            (mkStorage maxMem (2 + rest.length) maxPl))).2).2.images.length =
      2 + rest.length ∧
    hasImage a.id (storeImage fr.id fr.format fr.width fr.height fr.dataLen
        fr.hasBitmap now3
        (getImage a.id now2
          (insertImages (a :: b :: rest) now1
            (mkStorage maxMem (2 + rest.length) maxPl))).2).2 = true ∧
    (∀ s ∈ rest, hasImage s.id (storeImage fr.id fr.format fr.width fr.height
        fr.dataLen fr.hasBitmap now3
        (getImage a.id now2
          (insertImages (a :: b :: rest) now1
            (mkStorage maxMem (2 + rest.length) maxPl))).2).2 = true) ∧
    hasImage fr.id (storeImage fr.id fr.format fr.width fr.height fr.dataLen
        fr.hasBitmap now3
        (getImage a.id now2
          (insertImages (a :: b :: rest) now1
            (mkStorage maxMem (2 + rest.length) maxPl))).2).2 = true ∧
    hasImage b.id (storeImage fr.id fr.format fr.width fr.height fr.dataLen
        fr.hasBitmap now3
        (getImage a.id now2
          (insertImages (a :: b :: rest) now1
            (mkStorage maxMem (2 + rest.length) maxPl))).2).2 = false := by
  have hnd' : (a.id :: b.id :: (rest.map ImgSpec.id ++ [fr.id])).Nodup := by
    simpa only [List.map_cons, List.map_append, List.map_nil] using hnd
  rcases List.nodup_cons.mp hnd' with ⟨ha, hnd2⟩
  rcases List.nodup_cons.mp hnd2 with ⟨hb, hnd3⟩
  rcases List.nodup_append.mp hnd3 with ⟨hrestnd, _, hdisj⟩
  simp only [List.mem_cons, List.mem_append, List.mem_singleton, not_or] at ha hb
  obtain ⟨hab, har, haf, -⟩ := ha
  obtain ⟨hbr, hbf, -⟩ := hb
  have hfr : fr.id ∉ rest.map ImgSpec.id := fun hm => hdisj hm (by simp)
  have hb' : (specBytes a : Int) + (specBytes b : Int) +
      (rest.map (fun s => (specBytes s : Int))).sum + (specBytes fr : Int) ≤
      (maxMem : Int) := by
    simp only [List.map_cons, List.map_append, List.map_nil, List.sum_cons,
      List.sum_append, List.sum_nil] at hbudget
    omega
  have hnodup0 : (((mkStorage maxMem (2 + rest.length) maxPl).images.map Prod.fst) ++
      (a :: b :: rest).map ImgSpec.id).Nodup := by
    show (([] : List Nat) ++ (a :: b :: rest).map ImgSpec.id).Nodup
    rw [List.nil_append]
    simp only [List.map_cons]
    refine List.nodup_cons.mpr ⟨?_, List.nodup_cons.mpr ⟨hbr, hrestnd⟩⟩
    simp only [List.mem_cons, not_or]
    exact ⟨hab, har⟩
  have hcount0 : (mkStorage maxMem (2 + rest.length) maxPl).images.length +
      (a :: b :: rest).length ≤ (mkStorage maxMem (2 + rest.length) maxPl).maxImages := by
    show 0 + (a :: b :: rest).length ≤ 2 + rest.length
    simp only [List.length_cons]
    omega
  have hbudget0 : (mkStorage maxMem (2 + rest.length) maxPl).memoryUsage +
      ((a :: b :: rest).map (fun s => (specBytes s : Int))).sum ≤
      ((mkStorage maxMem (2 + rest.length) maxPl).maxMemory : Int) := by
    show (0 : Int) + ((a :: b :: rest).map (fun s => (specBytes s : Int))).sum ≤
      (maxMem : Int)
    simp only [List.map_cons, List.sum_cons]
    omega
  have h1 : insertImages (a :: b :: rest) now1 (mkStorage maxMem (2 + rest.length) maxPl)
      = flatStore ((a.id, specImage a now1) :: (b.id, specImage b now1) ::
          rest.map (fun s => (s.id, specImage s now1)))
        (a.id :: b.id :: rest.map ImgSpec.id)
        ((a :: b :: rest).map (fun s => (specBytes s : Int))).sum
        maxMem (2 + rest.length) maxPl := by
    rw [insertImages_spec (a :: b :: rest) now1 (mkStorage maxMem (2 + rest.length) maxPl)
      hnodup0 hcount0 rfl hbudget0 rfl]
    simp [flatStore, mkStorage]
  have h2 : (getImage a.id now2
      (insertImages (a :: b :: rest) now1 (mkStorage maxMem (2 + rest.length) maxPl))).2
      = flatStore ((a.id, specImage a now2) :: (b.id, specImage b now1) ::
          rest.map (fun s => (s.id, specImage s now1)))
        (b.id :: (rest.map ImgSpec.id ++ [a.id]))
        ((a :: b :: rest).map (fun s => (specBytes s : Int))).sum
        maxMem (2 + rest.length) maxPl := by
    rw [h1]
    simp [getImage, flatStore, mGet, mSet, specImage]
  have hmem3hyp : (((a :: b :: rest).map (fun s => (specBytes s : Int))).sum -
      (specBytes b : Int)) + (fr.dataLen : Int) ≤ (maxMem : Int) := by
    have hfb : fr.dataLen ≤ specBytes fr := Nat.le_add_right _ _
    simp only [List.map_cons, List.sum_cons]
    omega
  have h3 : (storeImage fr.id fr.format fr.width fr.height fr.dataLen fr.hasBitmap now3
      (getImage a.id now2 (insertImages (a :: b :: rest) now1
        (mkStorage maxMem (2 + rest.length) maxPl))).2).2
      = flatStore ((a.id, specImage a now2) ::
          rest.map (fun s => (s.id, specImage s now1)) ++ [(fr.id, specImage fr now3)])
        ((rest.map ImgSpec.id ++ [a.id]) ++ [fr.id])
        (((a :: b :: rest).map (fun s => (specBytes s : Int))).sum -
          (specBytes b : Int) + (specBytes fr : Int))
        maxMem (2 + rest.length) maxPl := by
    rw [h2]
    have hnone : mGet ((a.id, specImage a now2) ::
        rest.map (fun s => (s.id, specImage s now1))) fr.id = none := by
      rw [mGet_eq_none_iff]
      rw [show (((a.id, specImage a now2) ::
          rest.map (fun s => (s.id, specImage s now1))).map Prod.fst)
          = a.id :: rest.map ImgSpec.id from by rw [List.map_cons, List.map_map]; rfl]
      simp only [List.mem_cons, not_or]
      exact ⟨fun hh => haf hh.symm, hfr⟩
    unfold storeImage evictIfNeeded
    rw [evictCountLoop_step
      ((flatStore ((a.id, specImage a now2) :: (b.id, specImage b now1) ::
          rest.map (fun s => (s.id, specImage s now1)))
        (b.id :: (rest.map ImgSpec.id ++ [a.id])) (((a :: b :: rest).map (fun s => (specBytes s : Int))).sum)
        maxMem (2 + rest.length) maxPl).accessOrder.length)
      (flatStore ((a.id, specImage a now2) :: (b.id, specImage b now1) ::
          rest.map (fun s => (s.id, specImage s now1)))
        (b.id :: (rest.map ImgSpec.id ++ [a.id])) (((a :: b :: rest).map (fun s => (specBytes s : Int))).sum)
        maxMem (2 + rest.length) maxPl)
      b.id (rest.map ImgSpec.id ++ [a.id]) rfl
      (by simp only [flatStore, List.length_cons, List.length_map]; omega)]
    rw [removeImage_flat b.id (specImage b now1) a.id (specImage a now2)
      (rest.map (fun s => (s.id, specImage s now1))) (rest.map ImgSpec.id ++ [a.id])
      (((a :: b :: rest).map (fun s => (specBytes s : Int))).sum)
      maxMem (2 + rest.length) maxPl hab]
    rw [evictCountLoop_noop
      ((flatStore ((a.id, specImage a now2) :: (b.id, specImage b now1) ::
          rest.map (fun s => (s.id, specImage s now1)))
        (b.id :: (rest.map ImgSpec.id ++ [a.id])) (((a :: b :: rest).map (fun s => (specBytes s : Int))).sum)
        maxMem (2 + rest.length) maxPl).accessOrder.length)
      (flatStore ((a.id, specImage a now2) ::
          rest.map (fun s => (s.id, specImage s now1)))
        (rest.map ImgSpec.id ++ [a.id])
        ((((a :: b :: rest).map (fun s => (specBytes s : Int))).sum) - ((specImage b now1).byteSize : Int))
        maxMem (2 + rest.length) maxPl)
      (by simp only [flatStore, List.length_cons, List.length_map]; omega)]
    rw [evictMemLoop_noop fr.dataLen
      ((flatStore ((a.id, specImage a now2) :: (b.id, specImage b now1) ::
          rest.map (fun s => (s.id, specImage s now1)))
        (b.id :: (rest.map ImgSpec.id ++ [a.id])) (((a :: b :: rest).map (fun s => (specBytes s : Int))).sum)
        maxMem (2 + rest.length) maxPl).accessOrder.length + 1)
      (flatStore ((a.id, specImage a now2) ::
          rest.map (fun s => (s.id, specImage s now1)))
        (rest.map ImgSpec.id ++ [a.id])
        ((((a :: b :: rest).map (fun s => (specBytes s : Int))).sum) - ((specImage b now1).byteSize : Int))
        maxMem (2 + rest.length) maxPl)
      hmem3hyp]
    simp only [flatStore, hnone, Option.isSome_none, Bool.false_eq_true, if_false,
      mSet_of_none _ _ _ hnone]
    rfl
  have hkeys3 : (((a.id, specImage a now2) ::
      rest.map (fun s => (s.id, specImage s now1)) ++
      [(fr.id, specImage fr now3)]).map Prod.fst)
      = a.id :: rest.map ImgSpec.id ++ [fr.id] := by
    rw [List.map_append, List.map_cons, List.map_map]
    rfl
  refine ⟨?_, ?_, ?_, ?_, ?_, ?_⟩
  · rw [h2]
    exact (List.cons_append b.id (rest.map ImgSpec.id) [a.id]).symm
  · rw [h3]
    show ((a.id, specImage a now2) :: rest.map (fun s => (s.id, specImage s now1)) ++
      [(fr.id, specImage fr now3)]).length = 2 + rest.length
    simp only [List.length_cons, List.length_append, List.length_map, List.length_nil]
    omega
  · rw [h3]
    show (mGet ((a.id, specImage a now2) :: rest.map (fun s => (s.id, specImage s now1))
      ++ [(fr.id, specImage fr now3)]) a.id).isSome = true
    simp [mGet]
  · intro s hs
    rw [h3]
    show (mGet ((a.id, specImage a now2) :: rest.map (fun s => (s.id, specImage s now1))
      ++ [(fr.id, specImage fr now3)]) s.id).isSome = true
    rw [mGet_isSome_iff, hkeys3]
    exact List.mem_append_left _ (List.mem_cons_of_mem _ (List.mem_map_of_mem _ hs))
  · rw [h3]
    show (mGet ((a.id, specImage a now2) :: rest.map (fun s => (s.id, specImage s now1))
      ++ [(fr.id, specImage fr now3)]) fr.id).isSome = true
    rw [mGet_isSome_iff, hkeys3]
    exact List.mem_append_right _ (List.mem_singleton_self _)
  · rw [h3]
    show (mGet ((a.id, specImage a now2) :: rest.map (fun s => (s.id, specImage s now1))
      ++ [(fr.id, specImage fr now3)]) b.id).isSome = false
    have hnone3 : mGet ((a.id, specImage a now2) ::
        rest.map (fun s => (s.id, specImage s now1)) ++
        [(fr.id, specImage fr now3)]) b.id = none := by
      rw [mGet_eq_none_iff, hkeys3]
      simp only [List.mem_cons, List.mem_append, List.mem_singleton, not_or]
      exact ⟨⟨fun hh => hab hh.symm, hbr⟩, hbf, List.not_mem_nil _⟩
    rw [hnone3]
    rfl

/-- Witness for the amended C2 eviction scenario at K = 2: ids 1 and 2 are
inserted, image 1 is touched, inserting id 3 evicts image 2 and keeps
image 1. -/
theorem c2_lru_eviction_witness :
    ((((⟨1, 100, 1, 1, 10, false⟩ : ImgSpec) :: (⟨2, 100, 1, 1, 10, false⟩ : ImgSpec) ::
        ([] : List ImgSpec) ++ [(⟨3, 100, 1, 1, 10, false⟩ : ImgSpec)]).map ImgSpec.id).Nodup) ∧
    ((((⟨1, 100, 1, 1, 10, false⟩ : ImgSpec) :: (⟨2, 100, 1, 1, 10, false⟩ : ImgSpec) ::
        ([] : List ImgSpec) ++ [(⟨3, 100, 1, 1, 10, false⟩ : ImgSpec)]).map
        (fun s => (specBytes s : Int))).sum ≤ ((1000 : Nat) : Int)) ∧
    hasImage 1 (storeImage 3 100 1 1 10 false 2
        (getImage 1 1 (insertImages [⟨1, 100, 1, 1, 10, false⟩, ⟨2, 100, 1, 1, 10, false⟩]
          0 (mkStorage 1000 2 100))).2).2 = true ∧
    hasImage 2 (storeImage 3 100 1 1 10 false 2
        (getImage 1 1 (insertImages [⟨1, 100, 1, 1, 10, false⟩, ⟨2, 100, 1, 1, 10, false⟩]
          0 (mkStorage 1000 2 100))).2).2 = false :=
  ⟨by decide, by decide,
    (c2_lru_eviction 1000 100 0 1 2 (⟨1, 100, 1, 1, 10, false⟩ : ImgSpec)
      (⟨2, 100, 1, 1, 10, false⟩ : ImgSpec) (⟨3, 100, 1, 1, 10, false⟩ : ImgSpec) []
      (by decide) (by decide)).2.2.1,
    (c2_lru_eviction 1000 100 0 1 2 (⟨1, 100, 1, 1, 10, false⟩ : ImgSpec)
      (⟨2, 100, 1, 1, 10, false⟩ : ImgSpec) (⟨3, 100, 1, 1, 10, false⟩ : ImgSpec) []
      (by decide) (by decide)).2.2.2.2.2⟩

/-- The observable fields of a browser `ImageBitmap`. -/
structure Bitmap where
  width : Nat
  height : Nat
deriving DecidableEq, Repr

/-- The result of `ImageDecoder.decode` / `decodeFromBytes` (`DecodeResult` in
image-decoder.ts; `data` is the post-decompression byte array). -/
structure DecodeResult where
  bitmap : Bitmap
  data : List Nat
  width : Nat
  height : Nat
  byteSize : Nat
deriving DecidableEq, Repr

/-- The ways `decode` can throw (`throw new Error(...)` in image-decoder.ts);
`external` covers a rejection from the browser facilities the decoder calls
(zlib decompression, `ImageData` construction, `createImageBitmap`). -/
inductive DecodeErr where
  | missingDims : DecodeErr
  | unsupportedFormat : Nat → DecodeErr
  | external : List Char → DecodeErr
deriving DecidableEq, Repr

/-- The browser-provided facilities the decoder calls, as fallible functions:
`decompressZlib` (DecompressionStream), `pngToImageBitmap` (Blob +
`createImageBitmap`) and `rawRgbaToImageBitmap` (`ImageData` +
`createImageBitmap`, applied after the pure pad/truncate step modelled by
`rgbaFit`). -/
structure DecodeEnv where
  decompressZlib : List Nat → Except (List Char) (List Nat)
  pngToImageBitmap : List Nat → Except (List Char) Bitmap
  rawRgbaToImageBitmap : List Nat → Nat → Nat → Except (List Char) Bitmap

/-- `rgbToRgba`: repack RGB triples as RGBA with alpha 255; an out-of-range
read is `undefined`, which a `Uint8Array` write stores as 0. -/
def rgbToRgba (rgb : List Nat) (width height : Nat) : List Nat :=
  (List.range (width * height)).flatMap
    (fun i => [rgb.getD (i * 3) 0, rgb.getD (i * 3 + 1) 0, rgb.getD (i * 3 + 2) 0, 255])

/-- The pure pad/truncate step of `rawRgbaToImageBitmap`: copy into a zeroed
buffer of length `width * height * 4`. -/
def rgbaFit (rgba : List Nat) (width height : Nat) : List Nat :=
  rgba.take (width * height * 4) ++ List.replicate (width * height * 4 - rgba.length) 0

/-- `ImageDecoder.decodeFromBytes`: decompress when `compression === "z"`,
then dispatch on the format — 100 is PNG, 32/24 are raw pixel formats that
require both dimensions, anything else throws. -/
def decodeFromBytes (env : DecodeEnv) (bytes0 : List Nat) (format : Nat)
    (width height : Option Nat) (compression : Option Char) :
    Except DecodeErr DecodeResult :=
  match (if compression = some 'z' then env.decompressZlib bytes0
         else Except.ok bytes0) with
  | Except.error msg => Except.error (DecodeErr.external msg)
  | Except.ok bytes =>
    if format = 100 then
      match env.pngToImageBitmap bytes with
      | Except.error msg => Except.error (DecodeErr.external msg)
      | Except.ok bitmap =>
        Except.ok ⟨bitmap, bytes, bitmap.width, bitmap.height, bytes.length⟩
    else if format = 32 ∨ format = 24 then
      match width, height with
      | some w, some h =>
        match env.rawRgbaToImageBitmap
            (rgbaFit (if format = 24 then rgbToRgba bytes w h else bytes) w h) w h with
        | Except.error msg => Except.error (DecodeErr.external msg)
        | Except.ok bitmap => Except.ok ⟨bitmap, bytes, w, h, bytes.length⟩
      | _, _ => Except.error DecodeErr.missingDims
    else Except.error (DecodeErr.unsupportedFormat format)

/-- `ImageDecoder.decode`: decode the base64 payload to bytes, then proceed
exactly as `decodeFromBytes` (the source duplicates that body verbatim). -/
def decode (env : DecodeEnv) (payload : List Char) (format : Nat)
    (width height : Option Nat) (compression : Option Char) :
    Except DecodeErr DecodeResult :=
  decodeFromBytes env (base64ToBytes payload) format width height compression

/-- The fields of a parsed `KittyCommand` that `handleTransmit` reads
(`payload` models the optional string with `none` collapsed to `""`, matching
the source's `cmd.payload || ""`). -/
structure KittyCommand where
  imageId : Option Nat
  format : Option Nat
  width : Option Nat
  height : Option Nat
  more : Bool
  payload : List Char
  compression : Option Char
  quiet : Nat
deriving DecidableEq, Repr

/-- The graphics-manager state touched by `handleTransmit`. -/
structure ManagerState where
  storage : GraphicsStorage
  pendingChunkImageId : Option Nat
  nextImageId : Nat
deriving DecidableEq, Repr

/-- The manager's environment: the decoder's browser facilities, whether an
`imageDisplayCallback` is installed (popup mode), and the storage effect of
`createPlacement` (only reached after a successful decode). -/
structure ManagerEnv where
  dec : DecodeEnv
  hasDisplayCallback : Bool
  createPlacement : KittyCommand → Nat → GraphicsStorage → GraphicsStorage

/-- What one `handleTransmit` call did.  `sendResponse` is a no-op in the
source, and the `try`/`catch` around the decode is modelled by the call
returning a `decodeFailed` outcome instead of propagating an exception. -/
inductive TransmitOutcome where
  | chunkBuffered : TransmitOutcome
  | noData : TransmitOutcome
  | decodeFailed : DecodeErr → TransmitOutcome
  | stored : Nat → TransmitOutcome
deriving DecidableEq, Repr

/-- JavaScript `a || d` on an optional number (0 is falsy). -/
def jsOrNat (o : Option Nat) (d : Nat) : Nat :=
  match o with
  | some v => if v = 0 then d else v
  | none => d

/-- The image id `handleTransmit` uses, paired with the next `nextImageId`:
the explicit id, else the pending chunk id, else a freshly generated one. -/
def newImageId (cmd : KittyCommand) (st : ManagerState) : Nat × Nat :=
  match cmd.imageId with
  | some i => (i, st.nextImageId)
  | none =>
    match st.pendingChunkImageId with
    | some p => (p, st.nextImageId)
    | none => (st.nextImageId, st.nextImageId + 1)

/-- The chunk-merge step of `handleTransmit`: when a chunk buffer exists for
the id, take and clear it, append the final payload, combine all chunks to
raw bytes, and let the buffered format/width/height/compression fill in the
missing command fields.  Returns (rawBytes?, format, width, height,
compression, storage). -/
def mergeChunks (imageId : Nat) (cmd : KittyCommand) (storage : GraphicsStorage) :
    Option (List Nat) × Nat × Option Nat × Option Nat × Option Char × GraphicsStorage :=
  if hasChunkBuffer imageId storage then
    match getAndClearChunks imageId storage with
    | (some buffer, storage1) =>
      (some (combineChunksToBytes (buffer.chunks ++ [cmd.payload])), buffer.format,
        (match cmd.width with | some w => some w | none => buffer.width),
        (match cmd.height with | some h => some h | none => buffer.height),
        (match cmd.compression with | some c => some c | none => buffer.compression),
        storage1)
    | (none, storage1) =>
      (none, jsOrNat cmd.format 32, cmd.width, cmd.height, cmd.compression, storage1)
  else (none, jsOrNat cmd.format 32, cmd.width, cmd.height, cmd.compression, storage)

/-- `GraphicsManager.handleTransmit` (a=t / a=T) as a state transformer with
an outcome observation.  A `more` chunk is buffered; otherwise buffered
chunks are merged, a data-less command answers "no data", and the decode is
attempted: on success the image is stored (the decoder always produces a
bitmap) and, when displaying, either shown via the popup callback or placed;
on failure the catch block only logs. -/
def handleTransmit (env : ManagerEnv) (cmd : KittyCommand) (display : Bool)
    (now : Nat) (st : ManagerState) : ManagerState × TransmitOutcome :=
  if cmd.more then
    (⟨(addChunk (newImageId cmd st).1 cmd.payload (jsOrNat cmd.format 32) cmd.width
        cmd.height cmd.compression st.storage).2,
      some (newImageId cmd st).1, (newImageId cmd st).2⟩,
      TransmitOutcome.chunkBuffered)
  else
    match mergeChunks (newImageId cmd st).1 cmd st.storage with
    | (rawBytes, format, width, height, compression, storage1) =>
      if rawBytes = none ∧ cmd.payload = [] then
        (⟨storage1, none, (newImageId cmd st).2⟩, TransmitOutcome.noData)
      else
        match (match rawBytes with
          | some bytes => decodeFromBytes env.dec bytes format width height compression
          | none => decode env.dec cmd.payload format width height compression) with
        | Except.error err =>
          (⟨storage1, none, (newImageId cmd st).2⟩, TransmitOutcome.decodeFailed err)
        | Except.ok decoded =>
          (⟨(if display then
              (if env.hasDisplayCallback then
                (storeImage (newImageId cmd st).1 format decoded.width decoded.height
                  decoded.data.length true now storage1).2
               else
                env.createPlacement cmd
                  (storeImage (newImageId cmd st).1 format decoded.width decoded.height
                    decoded.data.length true now storage1).1.id
                  (storeImage (newImageId cmd st).1 format decoded.width decoded.height
                    decoded.data.length true now storage1).2)
             else
              (storeImage (newImageId cmd st).1 format decoded.width decoded.height
                decoded.data.length true now storage1).2),
            none, (newImageId cmd st).2⟩,
            TransmitOutcome.stored (newImageId cmd st).1)

/-- The chunk-merge step touches only the chunk buffers: images, access
order, tracked memory and both placement maps pass through unchanged. -/
theorem mergeChunks_frame (imageId : Nat) (cmd : KittyCommand)
    (storage : GraphicsStorage) :
    (mergeChunks imageId cmd storage).2.2.2.2.2.images = storage.images ∧
    (mergeChunks imageId cmd storage).2.2.2.2.2.accessOrder = storage.accessOrder ∧
    (mergeChunks imageId cmd storage).2.2.2.2.2.memoryUsage = storage.memoryUsage ∧
    (mergeChunks imageId cmd storage).2.2.2.2.2.placements = storage.placements ∧
    (mergeChunks imageId cmd storage).2.2.2.2.2.placementsByRow =
      storage.placementsByRow := by
  unfold mergeChunks hasChunkBuffer getAndClearChunks
  cases hmg : mGet storage.chunkBuffers imageId <;> simp [hmg]

/-- C8: when the decode of a transmit command fails (unsupported format,
missing width/height for a raw pixel format, or a failure in a browser
facility), the orchestrator's catch leaves the image map, the access order,
the tracked memory and both placement maps exactly as they were: no image is
inserted and no placement is created.  No exception propagates to the
caller: `handleTransmit` is total and reports the failure only through its
outcome. -/
theorem c8_decode_failure_no_mutation (env : ManagerEnv) (cmd : KittyCommand)
    (display : Bool) (now : Nat) (st : ManagerState) (e : DecodeErr)
    (h : (handleTransmit env cmd display now st).2 = TransmitOutcome.decodeFailed e) :
    (handleTransmit env cmd display now st).1.storage.images = st.storage.images ∧
    (handleTransmit env cmd display now st).1.storage.accessOrder =
      st.storage.accessOrder ∧
    (handleTransmit env cmd display now st).1.storage.memoryUsage =
      st.storage.memoryUsage ∧
    (handleTransmit env cmd display now st).1.storage.placements =
      st.storage.placements ∧
    (handleTransmit env cmd display now st).1.storage.placementsByRow =
      st.storage.placementsByRow := by
  unfold handleTransmit at h ⊢
  by_cases hm : cmd.more = true
  · rw [if_pos hm] at h
    simp at h
  · rw [if_neg hm] at h ⊢
    simp only [] at h ⊢
    have hf := mergeChunks_frame (newImageId cmd st).1 cmd st.storage
    by_cases hnd : (mergeChunks (newImageId cmd st).1 cmd st.storage).1 = none ∧
      cmd.payload = []
    · rw [if_pos hnd] at h
      simp at h
    · rw [if_neg hnd] at h ⊢
      cases hrb : (mergeChunks (newImageId cmd st).1 cmd st.storage).1 with
      | none =>
        simp only [hrb] at h ⊢
        cases hdec : decode env.dec cmd.payload
            (mergeChunks (newImageId cmd st).1 cmd st.storage).2.1
            (mergeChunks (newImageId cmd st).1 cmd st.storage).2.2.1
            (mergeChunks (newImageId cmd st).1 cmd st.storage).2.2.2.1
            (mergeChunks (newImageId cmd st).1 cmd st.storage).2.2.2.2.1 with
        | error err =>
          simp only [hdec] at h ⊢
          exact hf
        | ok decoded =>
          simp only [hdec] at h
          simp at h
      | some bytes =>
        simp only [hrb] at h ⊢
        cases hdec : decodeFromBytes env.dec bytes
            (mergeChunks (newImageId cmd st).1 cmd st.storage).2.1
            (mergeChunks (newImageId cmd st).1 cmd st.storage).2.2.1
            (mergeChunks (newImageId cmd st).1 cmd st.storage).2.2.2.1
            (mergeChunks (newImageId cmd st).1 cmd st.storage).2.2.2.2.1 with
        | error err =>
          simp only [hdec] at h ⊢
          exact hf
        | ok decoded =>
          simp only [hdec] at h
          simp at h

/-- A concrete manager environment whose browser facilities all reject (they
are never reached on the unsupported-format path). -/
def c8env : ManagerEnv :=
  ⟨⟨fun _ => Except.error [], fun _ => Except.error [], fun _ _ _ => Except.error []⟩,
    false, fun _ _ storage => storage⟩

/-- A transmit command with an unsupported format (50) and a non-empty
payload. -/
def c8cmd : KittyCommand :=
  ⟨some 7, some 50, none, none, false, ['Q', 'U', 'J', 'D'], none, 0⟩

/-- A manager state holding one stored image. -/
def c8state : ManagerState :=
  ⟨(storeImage 1 32 1 1 4 false 0 (mkStorage 1000 10 100)).2, none, 2⟩

/-- Witness for C8: transmitting format 50 fails to decode and leaves the
image map, access order, memory accounting and placement maps untouched. -/
theorem c8_decode_failure_no_mutation_witness :
    (handleTransmit c8env c8cmd true 5 c8state).2 =
      TransmitOutcome.decodeFailed (DecodeErr.unsupportedFormat 50) ∧
    ((handleTransmit c8env c8cmd true 5 c8state).1.storage.images =
        c8state.storage.images ∧
      (handleTransmit c8env c8cmd true 5 c8state).1.storage.accessOrder =
        c8state.storage.accessOrder ∧
      (handleTransmit c8env c8cmd true 5 c8state).1.storage.memoryUsage =
        c8state.storage.memoryUsage ∧
      (handleTransmit c8env c8cmd true 5 c8state).1.storage.placements =
        c8state.storage.placements ∧
      (handleTransmit c8env c8cmd true 5 c8state).1.storage.placementsByRow =
        c8state.storage.placementsByRow) :=
  ⟨by decide,
    c8_decode_failure_no_mutation c8env c8cmd true 5 c8state
      (DecodeErr.unsupportedFormat 50) (by decide)⟩

/-- JavaScript `\d`: exactly the ASCII digits. -/
def isDigit (c : Char) : Bool :=
  decide (48 ≤ c.toNat ∧ c.toNat ≤ 57)

/-- JavaScript `\s`: the ECMAScript WhiteSpace and LineTerminator set. -/
def isWS (c : Char) : Bool :=
  decide (c.toNat = 9 ∨ c.toNat = 10 ∨ c.toNat = 11 ∨ c.toNat = 12 ∨ c.toNat = 13 ∨
    c.toNat = 32 ∨ c.toNat = 160 ∨ c.toNat = 5760 ∨
    (8192 ≤ c.toNat ∧ c.toNat ≤ 8202) ∨ c.toNat = 8232 ∨ c.toNat = 8233 ∨
    c.toNat = 8239 ∨ c.toNat = 8287 ∨ c.toNat = 12288 ∨ c.toNat = 65279)

/-- The optional response trailer `(?:\x1b\\|\\)?`: the alternation prefers
the two-character `ESC \`, then a lone backslash, else it matches empty
(nothing follows the group, so no backtracking can change this choice). -/
def trailerLen (l : List Char) : Nat :=
  match l with
  | [] => 0
  | [c] => if c = '\\' then 1 else 0
  | c1 :: c2 :: _ =>
    if c1 = '\x1b' ∧ c2 = '\\' then 2 else if c1 = '\\' then 1 else 0

/-- `;(?:OK|ENOENT:[^\s]*)(?:\x1b\\|\\)?` at the head of the list: the length
matched, if any.  The alternation is decided by the first character after the
semicolon (`O` vs `E`), `[^\s]*` greedily takes the maximal run of
non-whitespace characters (shorter choices leave a non-whitespace character
where the optional trailer or the end of the pattern sits, and the trailer's
characters are themselves non-whitespace, so greedy is the engine's unique
result). -/
def matchSemiTail (l : List Char) : Option Nat :=
  match l with
  | ';' :: 'O' :: 'K' :: rest2 => some (3 + trailerLen rest2)
  | ';' :: 'E' :: 'N' :: 'O' :: 'E' :: 'N' :: 'T' :: ':' :: rest2 =>
    some (8 + (rest2.takeWhile (fun c => !isWS c)).length +
      trailerLen (rest2.drop (rest2.takeWhile (fun c => !isWS c)).length))
  | _ => none

/-- `(?:,p=\d+)?` followed by `matchSemiTail`.  The group is greedy; if it
matches but the continuation fails the engine backtracks and skips it, which
then fails too because the continuation needs `;` where the `,` sits — the
fall-through calls keep that behaviour literal. -/
def matchPTail (l : List Char) : Option Nat :=
  match l with
  | ',' :: 'p' :: '=' :: rest =>
    let d2 := (rest.takeWhile isDigit).length
    if d2 = 0 then matchSemiTail l
    else
      match matchSemiTail (rest.drop d2) with
      | some k => some (3 + d2 + k)
      | none => matchSemiTail l
  | _ => matchSemiTail l

/-- The bare echoed response `i=\d+(?:,p=\d+)?;(?:OK|ENOENT:[^\s]*)
(?:\x1b\\|\\)?` at the head of the list.  `\d+` is greedy and deterministic:
giving back digits leaves a digit where the continuation needs `,` or `;`. -/
def matchBareL (l : List Char) : Option Nat :=
  match l with
  | 'i' :: '=' :: rest =>
    let d := (rest.takeWhile isDigit).length
    if d = 0 then none
    else
      match matchPTail (rest.drop d) with
      | some k => some (2 + d + k)
      | none => none
  | _ => none

/-- After the `G` of the `withG` pattern: `(?:i=\d+)?` then `matchPTail`.
If the optional group matches but the continuation fails, skipping the group
fails too (the continuation needs `,` or `;` where the `i` sits). -/
def matchGTail (l : List Char) : Option Nat :=
  match l with
  | 'i' :: '=' :: rest =>
    let d := (rest.takeWhile isDigit).length
    if d = 0 then matchPTail l
    else
      match matchPTail (rest.drop d) with
      | some k => some (2 + d + k)
      | none => matchPTail l
  | _ => matchPTail l

/-- The `withG` pattern `(?:\x1b_|_)?G...`: the optional prefix is decided by
the leading characters (on failure of the longer alternative the shorter ones
would need `_` or `G` where an `ESC` sits, and vice versa). -/
def matchWithGL (l : List Char) : Option Nat :=
  match l with
  | '\x1b' :: '_' :: 'G' :: rest => (matchGTail rest).map (fun k => 3 + k)
  | '_' :: 'G' :: rest => (matchGTail rest).map (fun k => 2 + k)
  | 'G' :: rest => (matchGTail rest).map (fun k => 1 + k)
  | _ => none

/-- The backtracking of `[^\s]*` against a required `\x1b[K`: the engine
takes the longest prefix of the non-whitespace run after which `ESC [ K`
follows. -/
def lastKwithEscK (rest2 : List Char) (maxLen : Nat) : Option Nat :=
  (List.range (maxLen + 1)).reverse.find?
    (fun k => (rest2.drop k).take 3 = ['\x1b', '[', 'K'])

/-- `;(?:OK|ENOENT:[^\s]*)` immediately followed by the second capture
`\x1b\[K` of the framed pattern; the returned length includes the 3-character
erase sequence. -/
def matchFramedSemi (l : List Char) : Option Nat :=
  match l with
  | ';' :: 'O' :: 'K' :: rest2 =>
    if rest2.take 3 = ['\x1b', '[', 'K'] then some (3 + 3) else none
  | ';' :: 'E' :: 'N' :: 'O' :: 'E' :: 'N' :: 'T' :: ':' :: rest2 =>
    match lastKwithEscK rest2 (rest2.takeWhile (fun c => !isWS c)).length with
    | some k => some (8 + k + 3)
    | none => none
  | _ => none

/-- `(?:,p=\d+)?` before `matchFramedSemi`, with the same literal
backtracking fall-through as `matchPTail`. -/
def matchFramedP (l : List Char) : Option Nat :=
  match l with
  | ',' :: 'p' :: '=' :: rest =>
    let d2 := (rest.takeWhile isDigit).length
    if d2 = 0 then matchFramedSemi l
    else
      match matchFramedSemi (rest.drop d2) with
      | some k => some (3 + d2 + k)
      | none => matchFramedSemi l
  | _ => matchFramedSemi l

/-- The response inside the framed pattern, `i=\d+(?:,p=\d+)?;...`, after
the `H` of the cursor move. -/
def matchFramedTail (l : List Char) : Option Nat :=
  match l with
  | 'i' :: '=' :: rest =>
    let d := (rest.takeWhile isDigit).length
    if d = 0 then none
    else
      match matchFramedP (rest.drop d) with
      | some k => some (2 + d + k)
      | none => none
  | _ => none

/-- The framed pattern `\x1b\[\d+;\d+H(i=...)(\x1b\[K)`. -/
def matchFramedL (l : List Char) : Option Nat :=
  match l with
  | '\x1b' :: '[' :: rest =>
    let d1 := (rest.takeWhile isDigit).length
    if d1 = 0 then none
    else
      match rest.drop d1 with
      | ';' :: rest2 =>
        let d2 := (rest2.takeWhile isDigit).length
        if d2 = 0 then none
        else
          match rest2.drop d2 with
          | 'H' :: rest3 =>
            (matchFramedTail rest3).map (fun k => 2 + d1 + 1 + d2 + 1 + k)
          | _ => none
      | _ => none
  | _ => none

/-- `String.replace(regex, repl)` with a `g` flag: scan left to right, at
each position emit the replacement and skip the match, or keep the character.
The fuel bounds the scan by the input length (every step consumes at least
one character; the matchers here never match empty). -/
def replAllAux (m : List Char → Option Nat) (repl : List Char) :
    Nat → List Char → List Char
  | 0, l => l
  | _ + 1, [] => []
  | fuel + 1, c :: t =>
    match m (c :: t) with
    | some n =>
      if n = 0 then c :: replAllAux m repl fuel t
      else repl ++ replAllAux m repl fuel ((c :: t).drop n)
    | none => c :: replAllAux m repl fuel t

/-- `replace` over the whole string. -/
def replAll (m : List Char → Option Nat) (repl : List Char) (l : List Char) :
    List Char :=
  replAllAux m repl l.length l

/-- The intervals (start, length) the scan of `replAllAux` removes, in input
coordinates offset by `pos`. -/
def scanIvsAux (m : List Char → Option Nat) : Nat → Nat → List Char → List (Nat × Nat)
  | 0, _, _ => []
  | _ + 1, _, [] => []
  | fuel + 1, pos, c :: t =>
    match m (c :: t) with
    | some n =>
      if n = 0 then scanIvsAux m fuel (pos + 1) t
      else (pos, n) :: scanIvsAux m fuel (pos + n) ((c :: t).drop n)
    | none => scanIvsAux m fuel (pos + 1) t

/-- `KittyParser.stripEchoedResponses`: replace the `withG` pattern with
`""`, then the framed pattern with its own trailing `"\x1b[K"` (the `$2`
capture), then the bare pattern with `""`. -/
def stripEchoedResponses (s : List Char) : List Char :=
  replAll matchBareL []
    (replAll matchFramedL ['\x1b', '[', 'K']
      (replAll matchWithGL [] s))

/-- `getD` through `drop`. -/
theorem getD_drop {α : Type} (d : α) : ∀ (l : List α) (n i : Nat),
    (l.drop n).getD i d = l.getD (n + i) d
  | _, 0, _ => by simp
  | [], n + 1, i => by simp
  | c :: t, n + 1, i => by
    show (t.drop n).getD i d = (c :: t).getD (n + 1 + i) d
    rw [getD_drop d t n i, show n + 1 + i = (n + i) + 1 from by omega]
    rfl

/-- Characters inside a `takeWhile` run satisfy the predicate. -/
theorem takeWhile_getD {α : Type} (p : α → Bool) (d : α) : ∀ (l : List α) (j : Nat),
    j < (l.takeWhile p).length → p (l.getD j d) = true
  | [], j, h => by simp [List.takeWhile] at h
  | c :: t, j, h => by
    by_cases hp : p c
    · cases j with
      | zero => simpa using hp
      | succ j =>
        rw [List.takeWhile_cons, if_pos hp] at h
        simp only [List.length_cons, Nat.succ_lt_succ_iff] at h
        simpa using takeWhile_getD p d t j h
    · rw [List.takeWhile_cons, if_neg hp] at h
      simp at h

/-- The character right after a `takeWhile` run fails the predicate (or the
list ends there). -/
theorem dropRun_head {α : Type} (p : α → Bool) (d : α) : ∀ (l : List α),
    l.drop (l.takeWhile p).length = [] ∨
      p ((l.drop (l.takeWhile p).length).getD 0 d) = false
  | [] => Or.inl rfl
  | c :: t => by
    by_cases hp : p c
    · rw [List.takeWhile_cons, if_pos hp]
      simpa using dropRun_head p d t
    · rw [List.takeWhile_cons, if_neg hp]
      simp [hp]

/-- The trailer fits in the list. -/
theorem trailerLen_le : ∀ l : List Char, trailerLen l ≤ l.length
  | [] => by simp [trailerLen]
  | [c] => by by_cases h : c = '\\' <;> simp [trailerLen, h]
  | c1 :: c2 :: t => by
    simp only [trailerLen, List.length_cons]
    by_cases h1 : c1 = '\x1b' ∧ c2 = '\\'
    · rw [if_pos h1]; omega
    · rw [if_neg h1]
      by_cases h2 : c1 = '\\'
      · rw [if_pos h2]; omega
      · rw [if_neg h2]; omega

/-- Trailer characters are not whitespace. -/
theorem trailer_notWS : ∀ (l : List Char) (j : Nat), j < trailerLen l →
    isWS (l.getD j ' ') = false
  | [], j, h => by simp [trailerLen] at h
  | [c], j, h => by
    by_cases hc : c = '\\'
    · simp only [trailerLen, if_pos hc] at h
      interval_cases j
      subst hc
      decide
    · simp [trailerLen, hc] at h
  | c1 :: c2 :: t, j, h => by
    simp only [trailerLen] at h
    by_cases h1 : c1 = '\x1b' ∧ c2 = '\\'
    · rw [if_pos h1] at h
      obtain ⟨e1, e2⟩ := h1
      subst e1; subst e2
      interval_cases j
      · show isWS '\x1b' = false
        decide
      · show isWS '\\' = false
        decide
    · rw [if_neg h1] at h
      by_cases h2 : c1 = '\\'
      · rw [if_pos h2] at h
        interval_cases j
        subst h2
        show isWS '\\' = false
        decide
      · simp [h2] at h

/-- Trailer characters are not `i`. -/
theorem trailer_not_i : ∀ (l : List Char) (j : Nat), j < trailerLen l →
    ¬ l.getD j ' ' = 'i'
  | [], j, h => by simp [trailerLen] at h
  | [c], j, h => by
    by_cases hc : c = '\\'
    · simp only [trailerLen, if_pos hc] at h
      interval_cases j
      subst hc
      decide
    · simp [trailerLen, hc] at h
  | c1 :: c2 :: t, j, h => by
    simp only [trailerLen] at h
    by_cases h1 : c1 = '\x1b' ∧ c2 = '\\'
    · rw [if_pos h1] at h
      obtain ⟨e1, e2⟩ := h1
      subst e1; subst e2
      interval_cases j
      · show ¬ '\x1b' = 'i'
        decide
      · show ¬ '\\' = 'i'
        decide
    · rw [if_neg h1] at h
      by_cases h2 : c1 = '\\'
      · rw [if_pos h2] at h
        interval_cases j
        subst h2
        show ¬ '\\' = 'i'
        decide
      · simp [h2] at h

/-- A whitespace character starts no trailer. -/
theorem trailer0_of_WS : ∀ (c : Char) (t : List Char), isWS c = true →
    trailerLen (c :: t) = 0
  | c, [], h => by
    have : ¬ c = '\\' := fun hh => by subst hh; simp [isWS] at h
    simp [trailerLen, this]
  | c, c2 :: t, h => by
    have h2 : ¬ c = '\\' := fun hh => by subst hh; simp [isWS] at h
    have h1 : ¬ (c = '\x1b' ∧ c2 = '\\') := fun hh => by
      obtain ⟨e, -⟩ := hh
      subst e
      simp [isWS] at h
    simp [trailerLen, h1, h2]

/-- `takeWhile` never lengthens a list. -/
theorem takeWhileLen_le {α : Type} (p : α → Bool) : ∀ l : List α,
    (l.takeWhile p).length ≤ l.length
  | [] => by simp
  | c :: t => by
    by_cases hp : p c
    · rw [List.takeWhile_cons, if_pos hp]
      simpa using takeWhileLen_le p t
    · rw [List.takeWhile_cons, if_neg hp]
      simp

/-- A digit is not whitespace. -/
theorem digit_notWS (c : Char) (h : isDigit c = true) : isWS c = false := by
  simp only [isDigit, decide_eq_true_eq] at h
  simp only [isWS, decide_eq_false_iff_not]
  omega

/-- A digit is not the letter `i`. -/
theorem digit_not_i (c : Char) (h : isDigit c = true) : ¬ c = 'i' := by
  intro he
  subst he
  simp [isDigit] at h

/-- A `matchSemiTail` match is non-empty and fits in the list. -/
theorem semiTail_bounds : ∀ (l : List Char) (k : Nat), matchSemiTail l = some k →
    1 ≤ k ∧ k ≤ l.length := by
  intro l k h
  unfold matchSemiTail at h
  split at h
  · rename_i rest2
    injection h with h
    have := trailerLen_le rest2
    subst h
    simp only [List.length_cons]
    omega
  · rename_i rest2
    injection h with h
    have h1 := trailerLen_le (rest2.drop (rest2.takeWhile (fun c => !isWS c)).length)
    have h2 := takeWhileLen_le (fun c => !isWS c) rest2
    rw [List.length_drop] at h1
    subst h
    simp only [List.length_cons]
    omega
  · exact absurd h (by simp)

/-- The characters of a `matchSemiTail` match are not whitespace. -/
theorem semiTail_notWS : ∀ (l : List Char) (k : Nat), matchSemiTail l = some k →
    ∀ j, j < k → isWS (l.getD j ' ') = false := by
  intro l k h j hj
  unfold matchSemiTail at h
  split at h
  · rename_i rest2
    injection h with h
    subst h
    rcases j with _ | _ | _ | j
    · show isWS ';' = false
      decide
    · show isWS 'O' = false
      decide
    · show isWS 'K' = false
      decide
    · simp only [List.getD_cons_succ]
      exact trailer_notWS rest2 j (by omega)
  · rename_i rest2
    injection h with h
    subst h
    rcases j with _ | _ | _ | _ | _ | _ | _ | _ | j
    · show isWS ';' = false
      decide
    · show isWS 'E' = false
      decide
    · show isWS 'N' = false
      decide
    · show isWS 'O' = false
      decide
    · show isWS 'E' = false
      decide
    · show isWS 'N' = false
      decide
    · show isWS 'T' = false
      decide
    · show isWS ':' = false
      decide
    · simp only [List.getD_cons_succ]
      by_cases hjr : j < (rest2.takeWhile (fun c => !isWS c)).length
      · have := takeWhile_getD (fun c => !isWS c) ' ' rest2 j hjr
        simpa using this
      · have hj' : j - (rest2.takeWhile (fun c => !isWS c)).length <
            trailerLen (rest2.drop (rest2.takeWhile (fun c => !isWS c)).length) := by
          omega
        have hw := trailer_notWS _ _ hj'
        rw [getD_drop] at hw
        rw [show (rest2.takeWhile (fun c => !isWS c)).length +
          (j - (rest2.takeWhile (fun c => !isWS c)).length) = j from by omega] at hw
        exact hw
  · exact absurd h (by simp)

/-- If a `matchSemiTail` match has an interior `i`, the match is of the
ENOENT form and therefore ends at the end of the input or at a whitespace
character (the greedy `[^\s]*`). -/
theorem semiTail_i : ∀ (l : List Char) (k : Nat), matchSemiTail l = some k →
    ∀ j, j < k → l.getD j ' ' = 'i' → l.length ≤ k ∨ isWS (l.getD k ' ') = true := by
  intro l k h j hj hi
  unfold matchSemiTail at h
  split at h
  · rename_i rest2
    injection h with h
    subst h
    rcases j with _ | _ | _ | j
    · simp only [List.getD_cons_zero] at hi
      exact absurd hi (by decide)
    · simp only [List.getD_cons_succ, List.getD_cons_zero] at hi
      exact absurd hi (by decide)
    · simp only [List.getD_cons_succ, List.getD_cons_zero] at hi
      exact absurd hi (by decide)
    · simp only [List.getD_cons_succ] at hi
      exact absurd hi (trailer_not_i rest2 j (by omega))
  · rename_i rest2
    injection h with h
    subst h
    rcases dropRun_head (fun c => !isWS c) ' ' rest2 with hemp | hws
    · left
      have hlen := congrArg List.length hemp
      rw [List.length_drop] at hlen
      simp only [List.length_nil] at hlen
      rw [hemp]
      simp only [List.length_cons, trailerLen]
      have h2 := takeWhileLen_le (fun c => !isWS c) rest2
      omega
    · right
      have hws' : isWS ((rest2.drop
          (rest2.takeWhile (fun c => !isWS c)).length).getD 0 ' ') = true := by
        simpa using hws
      have htr : trailerLen (rest2.drop
          (rest2.takeWhile (fun c => !isWS c)).length) = 0 := by
        cases hd : rest2.drop (rest2.takeWhile (fun c => !isWS c)).length with
        | nil => rfl
        | cons c t' =>
          apply trailer0_of_WS
          rw [hd] at hws'
          simpa using hws'
      rw [htr]
      rw [getD_drop] at hws'
      rw [show (8:Nat) + (rest2.takeWhile (fun c => !isWS c)).length + 0 =
        (rest2.takeWhile (fun c => !isWS c)).length + 1 + 1 + 1 + 1 + 1 + 1 + 1 + 1
        from by omega]
      simp only [List.getD_cons_succ]
      rw [show (rest2.takeWhile (fun c => !isWS c)).length + 0 =
        (rest2.takeWhile (fun c => !isWS c)).length from by omega] at hws'
      exact hws'
  · exact absurd h (by simp)

/-- A `matchPTail` match is non-empty and fits in the list. -/
theorem pTail_bounds : ∀ (l : List Char) (k : Nat), matchPTail l = some k →
    1 ≤ k ∧ k ≤ l.length := by
  intro l k h
  unfold matchPTail at h
  split at h
  · rename_i rest
    simp only [] at h
    split at h
    · simp [matchSemiTail] at h
    · rename_i hd2
      split at h
      · rename_i k' hk'
        injection h with h
        have hb := semiTail_bounds _ _ hk'
        have h2 := takeWhileLen_le isDigit rest
        rw [List.length_drop] at hb
        subst h
        simp only [List.length_cons]
        omega
      · simp [matchSemiTail] at h
  · exact semiTail_bounds l k h

/-- The characters of a `matchPTail` match are not whitespace. -/
theorem pTail_notWS : ∀ (l : List Char) (k : Nat), matchPTail l = some k →
    ∀ j, j < k → isWS (l.getD j ' ') = false := by
  intro l k h j hj
  unfold matchPTail at h
  split at h
  · rename_i rest
    simp only [] at h
    split at h
    · simp [matchSemiTail] at h
    · rename_i hd2
      split at h
      · rename_i k' hk'
        injection h with h
        subst h
        rcases j with _ | _ | _ | j
        · show isWS ',' = false
          decide
        · show isWS 'p' = false
          decide
        · show isWS '=' = false
          decide
        · simp only [List.getD_cons_succ]
          by_cases hjd : j < (rest.takeWhile isDigit).length
          · exact digit_notWS _ (takeWhile_getD isDigit ' ' rest j hjd)
          · have hw := semiTail_notWS _ _ hk'
              (j - (rest.takeWhile isDigit).length) (by omega)
            rw [getD_drop] at hw
            rw [show (rest.takeWhile isDigit).length +
              (j - (rest.takeWhile isDigit).length) = j from by omega] at hw
            exact hw
      · simp [matchSemiTail] at h
  · exact semiTail_notWS l k h j hj

/-- If a `matchPTail` match has an interior `i`, it ends at the end of the
input or at a whitespace character. -/
theorem pTail_i : ∀ (l : List Char) (k : Nat), matchPTail l = some k →
    ∀ j, j < k → l.getD j ' ' = 'i' → l.length ≤ k ∨ isWS (l.getD k ' ') = true := by
  intro l k h j hj hi
  unfold matchPTail at h
  split at h
  · rename_i rest
    simp only [] at h
    split at h
    · simp [matchSemiTail] at h
    · rename_i hd2
      split at h
      · rename_i k' hk'
        injection h with h
        subst h
        rcases j with _ | _ | _ | j
        · simp only [List.getD_cons_zero] at hi
          exact absurd hi (by decide)
        · simp only [List.getD_cons_succ, List.getD_cons_zero] at hi
          exact absurd hi (by decide)
        · simp only [List.getD_cons_succ, List.getD_cons_zero] at hi
          exact absurd hi (by decide)
        · simp only [List.getD_cons_succ] at hi
          by_cases hjd : j < (rest.takeWhile isDigit).length
          · exact absurd hi (digit_not_i _ (takeWhile_getD isDigit ' ' rest j hjd))
          · have hs := semiTail_i _ _ hk' (j - (rest.takeWhile isDigit).length)
              (by omega) (by
                rw [getD_drop]
                rw [show (rest.takeWhile isDigit).length +
                  (j - (rest.takeWhile isDigit).length) = j from by omega]
                exact hi)
            rcases hs with hl | hr
            · left
              rw [List.length_drop] at hl
              simp only [List.length_cons]
              have h2 := takeWhileLen_le isDigit rest
              omega
            · right
              rw [getD_drop] at hr
              rw [show (3:Nat) + (rest.takeWhile isDigit).length + k' =
                ((rest.takeWhile isDigit).length + k') + 1 + 1 + 1 from by omega]
              simp only [List.getD_cons_succ]
              exact hr
      · simp [matchSemiTail] at h
  · exact semiTail_i l k h j hj hi

/-- A `matchBareL` match is non-empty and fits in the list. -/
theorem bare_bounds : ∀ (l : List Char) (n : Nat), matchBareL l = some n →
    1 ≤ n ∧ n ≤ l.length := by
  intro l n h
  unfold matchBareL at h
  split at h
  · rename_i rest
    simp only [] at h
    split at h
    · simp at h
    · rename_i hd
      split at h
      · rename_i k hk
        injection h with h
        have hb := pTail_bounds _ _ hk
        have h2 := takeWhileLen_le isDigit rest
        rw [List.length_drop] at hb
        subst h
        simp only [List.length_cons]
        omega
      · simp at h
  · simp at h

/-- The characters of a `matchBareL` match are not whitespace. -/
theorem bare_notWS : ∀ (l : List Char) (n : Nat), matchBareL l = some n →
    ∀ j, j < n → isWS (l.getD j ' ') = false := by
  intro l n h j hj
  unfold matchBareL at h
  split at h
  · rename_i rest
    simp only [] at h
    split at h
    · simp at h
    · rename_i hd
      split at h
      · rename_i k hk
        injection h with h
        subst h
        rcases j with _ | _ | j
        · show isWS 'i' = false
          decide
        · show isWS '=' = false
          decide
        · simp only [List.getD_cons_succ]
          by_cases hjd : j < (rest.takeWhile isDigit).length
          · exact digit_notWS _ (takeWhile_getD isDigit ' ' rest j hjd)
          · have hw := pTail_notWS _ _ hk
              (j - (rest.takeWhile isDigit).length) (by omega)
            rw [getD_drop] at hw
            rw [show (rest.takeWhile isDigit).length +
              (j - (rest.takeWhile isDigit).length) = j from by omega] at hw
            exact hw
      · simp at h
  · simp at h

/-- If a `matchBareL` match has an interior `i`, it ends at the end of the
input or at a whitespace character. -/
theorem bare_i : ∀ (l : List Char) (n : Nat), matchBareL l = some n →
    ∀ j, 0 < j → j < n → l.getD j ' ' = 'i' →
    l.length ≤ n ∨ isWS (l.getD n ' ') = true := by
  intro l n h j hj0 hj hi
  unfold matchBareL at h
  split at h
  · rename_i rest
    simp only [] at h
    split at h
    · simp at h
    · rename_i hd
      split at h
      · rename_i k hk
        injection h with h
        subst h
        rcases j with _ | _ | j
        · omega
        · simp only [List.getD_cons_succ, List.getD_cons_zero] at hi
          exact absurd hi (by decide)
        · simp only [List.getD_cons_succ] at hi
          by_cases hjd : j < (rest.takeWhile isDigit).length
          · exact absurd hi (digit_not_i _ (takeWhile_getD isDigit ' ' rest j hjd))
          · have hs := pTail_i _ _ hk (j - (rest.takeWhile isDigit).length)
              (by omega) (by
                rw [getD_drop]
                rw [show (rest.takeWhile isDigit).length +
                  (j - (rest.takeWhile isDigit).length) = j from by omega]
                exact hi)
            rcases hs with hl | hr
            · left
              rw [List.length_drop] at hl
              simp only [List.length_cons]
              have h2 := takeWhileLen_le isDigit rest
              omega
            · right
              rw [getD_drop] at hr
              rw [show (2:Nat) + (rest.takeWhile isDigit).length + k =
                ((rest.takeWhile isDigit).length + k) + 1 + 1 from by omega]
              simp only [List.getD_cons_succ]
              exact hr
      · simp at h
  · simp at h

/-- A `matchBareL` match starts with `i`. -/
theorem bare_starts : ∀ (l : List Char) (n : Nat), matchBareL l = some n →
    l.getD 0 ' ' = 'i' := by
  intro l n h
  unfold matchBareL at h
  split at h
  · rfl
  · simp at h

/-- The nesting property of bare matches: a bare match starting strictly
inside another ends no later (its characters are non-whitespace, and an
outer match with an interior `i` ends at a whitespace break or at the end of
the input). -/
theorem bare_nest : ∀ (l : List Char) (n j k : Nat), matchBareL l = some n →
    0 < j → j < n → matchBareL (l.drop j) = some k → j + k ≤ n := by
  intro l n j k hout hj0 hjn hin
  by_contra hcon
  push_neg at hcon
  have hstart := bare_starts _ _ hin
  rw [getD_drop] at hstart
  rw [show j + 0 = j from by omega] at hstart
  have hd := bare_i l n hout j hj0 hjn hstart
  have hkle := (bare_bounds _ _ hin).2
  rw [List.length_drop] at hkle
  rcases hd with hl | hr
  · omega
  · have hnws := bare_notWS _ _ hin (n - j) (by omega)
    rw [getD_drop] at hnws
    rw [show j + (n - j) = n from by omega] at hnws
    rw [hr] at hnws
    exact absurd hnws (by simp)

/-- Coverage of the `g`-flagged replace scan: every match occurrence in the
input lies inside one of the removed intervals, provided matches are
non-empty, fit in the input, and nest (a match starting strictly inside
another ends no later). -/
theorem scan_cov (m : List Char → Option Nat)
    (hpos : ∀ l n, m l = some n → 1 ≤ n ∧ n ≤ l.length)
    (hnest : ∀ l n j k, m l = some n → 0 < j → j < n → m (l.drop j) = some k →
      j + k ≤ n) :
    ∀ (fuel pos : Nat) (l : List Char), l.length ≤ fuel →
      ∀ p n, m (l.drop p) = some n →
        ∃ q k, (q, k) ∈ scanIvsAux m fuel pos l ∧ q ≤ pos + p ∧
          pos + p + n ≤ q + k := by
  intro fuel
  induction fuel with
  | zero =>
    intro pos l hf p n hm
    have hl : l = [] := List.length_eq_zero.mp (by omega)
    subst hl
    rw [List.drop_nil] at hm
    have := hpos [] n hm
    simp at this
    omega
  | succ fuel ih =>
    intro pos l hf p n hm
    cases l with
    | nil =>
      rw [List.drop_nil] at hm
      have := hpos [] n hm
      simp at this
      omega
    | cons c t =>
      cases hm0 : m (c :: t) with
      | some n0 =>
        have hn0 := hpos _ _ hm0
        unfold scanIvsAux
        simp only [hm0]
        rw [if_neg (show ¬ n0 = 0 by omega)]
        by_cases hp0 : p = 0
        · subst hp0
          rw [List.drop_zero, hm0] at hm
          injection hm with hm
          subst hm
          exact ⟨pos, n0, by simp, by omega, by omega⟩
        · by_cases hpn : p < n0
          · have hle := hnest (c :: t) n0 p n hm0 (by omega) hpn hm
            exact ⟨pos, n0, by simp, by omega, by omega⟩
          · have hrec := ih (pos + n0) ((c :: t).drop n0)
              (by
                rw [List.length_drop]
                simp only [List.length_cons] at hf ⊢
                omega)
              (p - n0) n
              (by
                rw [List.drop_drop]
                rw [show n0 + (p - n0) = p from by omega]
                exact hm)
            obtain ⟨q, k, hmem, hq1, hq2⟩ := hrec
            exact ⟨q, k, List.mem_cons_of_mem _ hmem, by omega, by omega⟩
      | none =>
        unfold scanIvsAux
        simp only [hm0]
        cases p with
        | zero =>
          rw [List.drop_zero, hm0] at hm
          exact absurd hm (by simp)
        | succ p' =>
          have hrec := ih (pos + 1) t
            (by simp only [List.length_cons] at hf; omega)
            p' n (by simpa using hm)
          obtain ⟨q, k, hmem, hq1, hq2⟩ := hrec
          exact ⟨q, k, hmem, by omega, by omega⟩

/-- The scan's interval lengths account exactly for the characters the
empty-replacement pass deletes. -/
theorem scan_repl_length (m : List Char → Option Nat)
    (hpos : ∀ l n, m l = some n → 1 ≤ n ∧ n ≤ l.length) :
    ∀ (fuel pos : Nat) (l : List Char),
      (replAllAux m [] fuel l).length +
        ((scanIvsAux m fuel pos l).map Prod.snd).sum = l.length := by
  intro fuel
  induction fuel with
  | zero => intro pos l; simp [replAllAux, scanIvsAux]
  | succ fuel ih =>
    intro pos l
    cases l with
    | nil => simp [replAllAux, scanIvsAux]
    | cons c t =>
      unfold replAllAux scanIvsAux
      cases hm0 : m (c :: t) with
      | some n0 =>
        have hn0 := hpos _ _ hm0
        simp only []
        rw [if_neg (show ¬ n0 = 0 by omega)]
        rw [if_neg (show ¬ n0 = 0 by omega)]
        simp only [List.nil_append, List.map_cons, List.sum_cons]
        have := ih (pos + n0) ((c :: t).drop n0)
        rw [List.length_drop] at this
        simp only [List.length_cons] at hn0 this ⊢
        omega
      | none =>
        simp only []
        have := ih (pos + 1) t
        simp only [List.length_cons]
        omega

/-- A pass whose pattern matches nowhere leaves the input unchanged. -/
theorem replAll_id (m : List Char → Option Nat) (repl : List Char) :
    ∀ (fuel : Nat) (l : List Char), (∀ p, p < l.length → m (l.drop p) = none) →
      replAllAux m repl fuel l = l := by
  intro fuel
  induction fuel with
  | zero => intro l _; rfl
  | succ fuel ih =>
    intro l hnone
    cases l with
    | nil => rfl
    | cons c t =>
      have h0 : m (c :: t) = none := by
        have := hnone 0 (by simp)
        simpa using this
      unfold replAllAux
      simp only [h0]
      rw [ih t (fun p hp => by
        have := hnone (p + 1) (by simp only [List.length_cons]; omega)
        simpa using this)]

/-- C9: echo-stripping removes every embedded bare echoed response, and
leaves unrelated text alone.  Precisely: (1) every occurrence of the bare
response pattern `i=<digits>[,p=<digits>];OK|;ENOENT:<msg>` in the input of
the final (bare) pass lies entirely inside one of the intervals that pass
removes; (2) the removed intervals account exactly for the characters
deleted by the pass; (3) text in which none of the three patterns occurs is
returned unchanged; (4) a non-numeric value — such as the `four` of
`i=four` — never matches the bare pattern, so such text is not stripped. -/
theorem c9_bare_response_stripping (s : List Char) :
    (∀ p n, matchBareL ((replAll matchFramedL ['\x1b', '[', 'K']
          (replAll matchWithGL [] s)).drop p) = some n →
      ∃ q k, (q, k) ∈ scanIvsAux matchBareL
          (replAll matchFramedL ['\x1b', '[', 'K'] (replAll matchWithGL [] s)).length 0
          (replAll matchFramedL ['\x1b', '[', 'K'] (replAll matchWithGL [] s)) ∧
        q ≤ p ∧ p + n ≤ q + k) ∧
    (stripEchoedResponses s).length +
      ((scanIvsAux matchBareL
          (replAll matchFramedL ['\x1b', '[', 'K'] (replAll matchWithGL [] s)).length 0
          (replAll matchFramedL ['\x1b', '[', 'K'] (replAll matchWithGL [] s))).map
        Prod.snd).sum =
      (replAll matchFramedL ['\x1b', '[', 'K'] (replAll matchWithGL [] s)).length ∧
    ((∀ p, p < s.length → matchWithGL (s.drop p) = none ∧
        matchFramedL (s.drop p) = none ∧ matchBareL (s.drop p) = none) →
      stripEchoedResponses s = s) ∧
    (∀ (c : Char) (l : List Char), isDigit c = false →
      matchBareL ('i' :: '=' :: c :: l) = none) := by
  refine ⟨?_, ?_, ?_, ?_⟩
  · intro p n hm
    obtain ⟨q, k, hmem, h1, h2⟩ := scan_cov matchBareL bare_bounds bare_nest
      (replAll matchFramedL ['\x1b', '[', 'K'] (replAll matchWithGL [] s)).length 0
      (replAll matchFramedL ['\x1b', '[', 'K'] (replAll matchWithGL [] s))
      le_rfl p n hm
    exact ⟨q, k, hmem, by omega, by omega⟩
  · exact scan_repl_length matchBareL bare_bounds _ 0 _
  · intro hnone
    unfold stripEchoedResponses replAll
    rw [replAll_id matchWithGL [] s.length s (fun p hp => (hnone p hp).1)]
    rw [replAll_id matchFramedL _ s.length s (fun p hp => (hnone p hp).2.1)]
    rw [replAll_id matchBareL [] s.length s (fun p hp => (hnone p hp).2.2)]
  · intro c l hc
    simp [matchBareL, List.takeWhile_cons, hc]

/-- Witness for C9: in `"xxi=4;OKyy"` the embedded `i=4;OK` (at offset 2,
length 6) is covered by a removed interval and the stripped text is
`"xxyy"`, while `"i=four"` matches nothing and is returned unchanged. -/
theorem c9_bare_response_stripping_witness :
    matchBareL ((replAll matchFramedL ['\x1b', '[', 'K']
        (replAll matchWithGL [] ("xxi=4;OKyy".toList))).drop 2) = some 6 ∧
    (∃ q k, (q, k) ∈ scanIvsAux matchBareL
        (replAll matchFramedL ['\x1b', '[', 'K']
          (replAll matchWithGL [] ("xxi=4;OKyy".toList))).length 0
        (replAll matchFramedL ['\x1b', '[', 'K']
          (replAll matchWithGL [] ("xxi=4;OKyy".toList))) ∧
      q ≤ 2 ∧ 2 + 6 ≤ q + k) ∧
    isDigit 'f' = false ∧
    matchBareL ('i' :: '=' :: 'f' :: "our".toList) = none ∧
    stripEchoedResponses ("xxi=4;OKyy".toList) = "xxyy".toList ∧
    stripEchoedResponses ("i=four".toList) = "i=four".toList :=
  ⟨by decide,
    (c9_bare_response_stripping ("xxi=4;OKyy".toList)).1 2 6 (by decide),
    by decide,
    (c9_bare_response_stripping ("i=four".toList)).2.2.2 'f' "our".toList (by decide),
    by decide, by decide⟩

end GhosttyWeb
